import Mathlib

/-!
# avo: function synthesis (internal/api/function.go), operand model (operand/types.go)
# and validation arguments (internal/gen/ctorstest.go)

A shallow embedding of the Go sources.

Conventions of the embedding:

* a Go `string` is a Lean `String`; the program only ever inspects a string by its first
  byte (`Type[0]`), which is modelled by `byte0` (first byte of the UTF-8 encoding);
  Go compares strings bytewise, which for UTF-8 text is the code point order of `String`;
* a Go `int` is an `Int`, a `uint8` or `uint64` a `Nat`, an `int32` an `Int`; the theorems
  hold for all numbers, so for those in range;
* a run-time panic (index out of range, negative `make` length, unknown operand type) is the
  value `none`; the panic of `validFormArgs` is an error value that carries its message;
* a `nil` register is `none`;
* a Go `map` is an association list kept in insertion order; wherever the program ranges
  over a map it sorts what it collected, and the sort is modelled by `List.insertionSort`.
-/

namespace Avo

/-! ## Data model (package internal/inst, seen through its uses in function.go) -/

/-- Modelled from the spec: `inst.Operand` (package internal/inst is not among the sources);
only the type tag is read by the code under study (field `Type` in Go, a reserved word
here). -/
structure Operand where
  Typ : String
deriving DecidableEq, Repr

/-- Modelled from the spec: `inst.Form`, an ordered sequence of operands together with the
result of its method `SupportedSuffixes()` (the list of suffix combinations the form supports,
each an ordered sequence of suffix tokens). -/
structure Form where
  Operands : List Operand
  SupportedSuffixes : List (List String)
deriving DecidableEq, Repr

/-- The type `inst.Forms`: a slice of forms. -/
abbrev Forms := List Form

/-- Modelled from the spec: `inst.Instruction`: opcode, summary and forms. -/
structure Instruction where
  Opcode : String
  Summary : String
  Forms : Forms
deriving DecidableEq, Repr

/-- Modelled from the spec: the arity queries `IsVariadic()`, `IsNiladic()` and `Arity()` of
`inst.Forms`, whose bodies are not among the sources.  They are taken as parameters of
`Function.Signature`. -/
structure ArityQueries where
  IsVariadic : Forms → Bool
  IsNiladic : Forms → Bool
  Arity : Forms → Int

/-- The struct `Function` of function.go: an instruction, one suffix combination and the
forms of the instruction that were appended for this combination. -/
structure Function where
  Instruction : Instruction
  Suffixes : List String
  Forms : Forms
deriving DecidableEq, Repr

/-! ## Go library functions used by the sources -/

/-- The Go library function `strings.Join(elems, sep)`. -/
def Join : List String → String → String
  | [], _ => ""
  | [a], _ => a
  | a :: b :: rest, sep => a ++ sep ++ Join (b :: rest) sep

/-- The Go library function `strconv.Itoa`, also the verb `%d` of `fmt.Sprintf`:
decimal digits, with a leading `-` for a negative number. -/
def Itoa (m : Int) : String :=
  if m < 0 then "-" ++ Nat.repr m.natAbs else Nat.repr m.natAbs

/-- The verb `%+d` of `fmt.Sprintf`: decimal digits, always with a sign. -/
def ItoaPlus (m : Int) : String :=
  if m < 0 then "-" ++ Nat.repr m.natAbs else "+" ++ Nat.repr m.natAbs

/-! ## Function.Name, Function.Opcode -/

/-- The method `opcodesuffix`:
`n := f.Instruction.Opcode; for _, suffix := range f.Suffixes { n += sep; n += suffix }`. -/
def Function.opcodesuffix (f : Function) (sep : String) : String :=
  f.Suffixes.foldl (fun n suffix => (n ++ sep) ++ suffix) f.Instruction.Opcode

/-- The method `Name`. -/
def Function.Name (f : Function) : String := f.opcodesuffix "_"

/-- The method `Opcode`. -/
def Function.Opcode (f : Function) : String := f.opcodesuffix "."

/-- The opcode's tail in the words of the specification: for each suffix in order, the
separator followed by the suffix. -/
def suffixed (sep : String) : List String → String
  | [] => ""
  | s :: rest => sep ++ s ++ suffixed sep rest

/-! ## Function.Signature -/

/-- The interface `Signature` of the package with its three implementations
`variadic`, `niladic` and `argslist`. -/
inductive Signature where
  | variadic (name : String)
  | niladic
  | argslist (ops : List String)
deriving DecidableEq, Repr

/-- First byte of the UTF-8 encoding of a character. -/
def utf8Lead (c : Char) : Nat :=
  if c.toNat < 0x80 then c.toNat
  else if c.toNat < 0x800 then 0xC0 + c.toNat / 0x40
  else if c.toNat < 0x10000 then 0xE0 + c.toNat / 0x1000
  else 0xF0 + c.toNat / 0x40000

/-- The Go expression `s[0]` on a string: its first byte, a panic on the empty string. -/
def byte0 (s : String) : Option Nat :=
  match s.data with
  | [] => none
  | c :: _ => some (utf8Lead c)

/-- The Go statement `s[c] = true` on a `map[byte]bool` whose values are all `true`:
the map is the list of its keys in insertion order. -/
def setKey (s : List Nat) (c : Nat) : List Nat :=
  if c ∈ s then s else s ++ [c]

/-- One iteration of the loop over the forms (lines 84-89):
`c := form.Operands[j].Type[0]; if 'a' <= c && c <= 'z' { s[c] = true }`. -/
def collectStep (j : Nat) (s : List Nat) (form : Form) : Option (List Nat) :=
  match form.Operands[j]? with
  | none => none
  | some op =>
    match byte0 op.Typ with
    | none => none
    | some c => if 97 ≤ c ∧ c ≤ 122 then some (setKey s c) else some s

/-- The loop over the forms (lines 83-89), starting from the empty map. -/
def collect (j : Nat) (forms : Forms) : Option (List Nat) :=
  forms.foldlM (collectStep j) []

/-- Lines 91-97: the keys of the map, sorted ascending as bytes, converted to a string.
The keys are lowercase ASCII letters, so each byte is one character. -/
def sortedName (s : List Nat) : String :=
  String.mk ((List.insertionSort (· ≤ ·) s).map Char.ofNat)

/-- The state of the loop over the positions: the slice `ops` and the map `count`
(a missing key of a Go `map[string]int` reads as 0). -/
structure SigState where
  ops : List String
  count : String → Int

/-- One iteration of the loop over the positions (lines 81-106). -/
def nameStep (forms : Forms) (st : SigState) (j : Nat) : Option SigState :=
  match collect j forms with
  | none => none
  | some s =>
    let name := sortedName s
    let m := st.count name
    let count := Function.update st.count name (m + 1)
    let name := if m > 0 then name ++ Itoa m else name
    some { ops := st.ops.set j name, count := count }

/-- The method `Signature` (lines 68-109).  `none` is a panic. -/
def Function.Signature (q : ArityQueries) (f : Function) : Option Signature :=
  if q.IsVariadic f.Forms then some (Signature.variadic "ops")
  else if q.IsNiladic f.Forms then some Signature.niladic
  else
    let n := q.Arity f.Forms
    if n < 0 then none
    else
      match (List.range n.toNat).foldlM (nameStep f.Forms)
          { ops := List.replicate n.toNat "", count := fun _ => 0 } with
      | none => none
      | some st => some (Signature.argslist st.ops)

/-! ### The naming rule in the words of the specification -/

/-- The lowercase ASCII letters in ascending order. -/
def lowercase : List Char :=
  ['a', 'b', 'c', 'd', 'e', 'f', 'g', 'h', 'i', 'j', 'k', 'l', 'm',
   'n', 'o', 'p', 'q', 'r', 's', 't', 'u', 'v', 'w', 'x', 'y', 'z']

/-- The first character of the type tag at position `j` of a form, when there is one. -/
def firstChar (form : Form) (j : Nat) : Option Char :=
  form.Operands[j]?.bind (fun op => op.Typ.data.head?)

/-- The candidate name of position `j`: the lowercase letters that occur as first character
of the type tag at position `j` of some form, each once, in ascending order. -/
def candidate (forms : Forms) (j : Nat) : String :=
  String.mk (lowercase.filter (fun c => forms.any (fun form => firstChar form j == some c)))

/-- The number of earlier positions `i < j` with the same candidate name as position `j`. -/
def earlier (forms : Forms) (j : Nat) : Nat :=
  ((List.range j).filter (fun i => candidate forms i = candidate forms j)).length

/-- The name of position `j`: the candidate, followed by the decimal rendering of the number
`k` of earlier positions with the same candidate when `k ≥ 1`. -/
def specName (forms : Forms) (j : Nat) : String :=
  if 1 ≤ earlier forms j then candidate forms j ++ Nat.repr (earlier forms j)
  else candidate forms j

/-- The fixed-arity path of `Signature()` with arity `n`: the forms are neither variadic nor
niladic, `Arity()` is `n`, and every form has exactly `n` operands with non-empty type tags. -/
def FixedArityPath (q : ArityQueries) (forms : Forms) (n : Nat) : Prop :=
  q.IsVariadic forms = false ∧ q.IsNiladic forms = false ∧ q.Arity forms = (n : Int) ∧
    ∀ form ∈ forms, form.Operands.length = n ∧ ∀ op ∈ form.Operands, op.Typ ≠ ""

/-- The decimal suffix of the name of a position with `k` earlier equal candidates. -/
def counterText (k : Nat) : List Char :=
  if 1 ≤ k then (Nat.repr k).data else []

/-- Modelled from the spec: the distinct arities (operand counts) of a list of forms, on
which the arity queries of `inst.Forms` (not among the sources) rest. -/
def Forms.Arities (fs : Forms) : List Nat :=
  (fs.map (fun f => f.Operands.length)).dedup

/-- Modelled from the spec: the method `IsVariadic` of `inst.Forms` (not among the
sources), read as the comment on the switch of `Signature` has it (`Handle the case of forms
with multiple arities`): the forms have more than one arity. -/
def Forms.IsVariadic (fs : Forms) : Bool :=
  decide (1 < (Forms.Arities fs).length)

/-- Modelled from the spec: the method `IsNiladic` of `inst.Forms` (not among the sources):
the forms have one arity and it is 0, no form has operands.  An empty list of forms has no
arity and is not niladic. -/
def Forms.IsNiladic (fs : Forms) : Bool :=
  decide (Forms.Arities fs = [0])

/-- Modelled from the spec: the method `Arity` of `inst.Forms` (not among the sources): the
arity the forms agree on.  On an empty list of forms the method has no arity to return and
panics; the answer `-1` stands for that panic, `Signature` panics on it too. -/
def Forms.Arity (fs : Forms) : Int :=
  match Forms.Arities fs with
  | a :: _ => (a : Int)
  | [] => -1

/-- The arity queries of `inst.Forms` as modelled above. -/
def exQueries : ArityQueries :=
  { IsVariadic := Forms.IsVariadic
    IsNiladic := Forms.IsNiladic
    Arity := Forms.Arity }

/-- The function of the instruction `CPUID`: one form without operands, no suffix. -/
def exCPUID : Function :=
  { Instruction := { Opcode := "CPUID", Summary := "CPU Identification", Forms := [] }
    Suffixes := []
    Forms := [⟨[], [[]]⟩] }

/-- The function of the worked example: forms `(r8, r8)` and `(r16, r16)`. -/
def exRR : Function :=
  { Instruction := { Opcode := "OP", Summary := "", Forms := [] }
    Suffixes := []
    Forms := [⟨[⟨"r8"⟩, ⟨"r8"⟩], [[]]⟩, ⟨[⟨"r16"⟩, ⟨"r16"⟩], [[]]⟩] }

/-- A function whose type tags start with no lowercase letter: forms `(1, 3)` and `(1, 3)`. -/
def exDigits : Function :=
  { Instruction := { Opcode := "OP", Summary := "", Forms := [] }
    Suffixes := []
    Forms := [⟨[⟨"1"⟩, ⟨"3"⟩, ⟨"3"⟩], [[]]⟩, ⟨[⟨"1"⟩, ⟨"3"⟩, ⟨"3"⟩], [[]]⟩] }

/-- A function with an empty type tag: forms `(r8, r8)` and `(r16, )`. -/
def exEmptyTag : Function :=
  { Instruction := { Opcode := "OP", Summary := "", Forms := [] }
    Suffixes := []
    Forms := [⟨[⟨"r8"⟩, ⟨"r8"⟩], [[]]⟩, ⟨[⟨"r16"⟩, ⟨""⟩], [[]]⟩] }

/-- A function with forms of differing operand counts: `(r8, r8)` and `(r16)`. -/
def exShort : Function :=
  { Instruction := { Opcode := "OP", Summary := "", Forms := [] }
    Suffixes := []
    Forms := [⟨[⟨"r8"⟩, ⟨"r8"⟩], [[]]⟩, ⟨[⟨"r16"⟩], [[]]⟩] }

/-- The number written by a list of decimal digit characters. -/
def digitsValue (l : List Char) : Nat :=
  l.foldl (fun a c => 10 * a + (c.toNat - 48)) 0

/-! ## InstructionFunctions, InstructionsFunctions, SortFunctions -/

/-- The statement `bysuffix[k].Forms = append(bysuffix[k].Forms, f)`: the values of the map
are pointers, so the function stored under `k` is updated in place. -/
def appendForm (k : String) (f : Form) : List (String × Function) → List (String × Function)
  | [] => []
  | (k1, fn) :: rest =>
    if k1 = k then (k1, { fn with Forms := fn.Forms ++ [f] }) :: rest
    else (k1, fn) :: appendForm k f rest

/-- The body of the inner loop of `InstructionFunctions` (lines 118-125) for one suffix
combination `suffixes` of the form `f`. -/
def addSuffixes (i : Instruction) (f : Form) (bysuffix : List (String × Function))
    (suffixes : List String) : List (String × Function) :=
  let k := Join suffixes "."
  let bysuffix :=
    if (bysuffix.lookup k).isNone then
      bysuffix ++ [(k, { Instruction := i, Suffixes := suffixes, Forms := [] })]
    else bysuffix
  appendForm k f bysuffix

/-- The map `bysuffix` after the two nested loops (lines 115-127), keys in the order in
which they were first inserted. -/
def bysuffix (i : Instruction) : List (String × Function) :=
  i.Forms.foldl (fun m f => f.SupportedSuffixes.foldl (addSuffixes i f) m) []

/-- The comparison of `SortFunctions` seen as an order: `a` may stand before `b`, that is
`b.Name() < a.Name()` does not hold.  Go compares strings bytewise; on UTF-8 text this is
the lexicographic order of the characters (`nameLE_iff` relates it to `≤` on `String`). -/
def nameLE (a b : Function) : Prop := a.Name.data ≤ b.Name.data

instance : DecidableRel nameLE :=
  fun a b => inferInstanceAs (Decidable (a.Name.data ≤ b.Name.data))

instance : IsTotal Function nameLE := ⟨fun a b => le_total a.Name.data b.Name.data⟩

instance : IsTrans Function nameLE :=
  ⟨fun _ _ _ h1 h2 => le_trans (α := List Char) h1 h2⟩

/-- The function `SortFunctions`: `sort.Slice` with
`less(i, j) = fns[i].Name() < fns[j].Name()`.  `sort.Slice` is not stable; the model picks
one admissible result, and `sorted_perm_unique` shows it is the only one when the names are
pairwise distinct. -/
def SortFunctions (fns : List Function) : List Function :=
  fns.insertionSort nameLE

/-- The function `InstructionFunctions` (lines 113-138): the values of the map `bysuffix`
are collected (in an order Go leaves open) and sorted by `SortFunctions`. -/
def InstructionFunctions (i : Instruction) : List Function :=
  SortFunctions ((bysuffix i).map Prod.snd)

/-- The function `InstructionsFunctions` (lines 141-151):
`all = append(all, InstructionFunctions(i)...)` for every instruction, then `SortFunctions`. -/
def InstructionsFunctions (is : List Instruction) : List Function :=
  SortFunctions (is.foldl (fun all i => all ++ InstructionFunctions i) [])

/-- Every suffix combination met in the scan of the forms of an instruction (form by form,
combination by combination), repetitions included. -/
def scannedSuffixes (i : Instruction) : List (List String) :=
  i.Forms.flatMap (fun f => f.SupportedSuffixes)

/-- The scan of the two nested loops: every pair of a form and one of its suffix
combinations, in the order in which the loops visit them. -/
def scanPairs (i : Instruction) : List (Form × List String) :=
  i.Forms.flatMap (fun f => f.SupportedSuffixes.map (fun s => (f, s)))

/-- The invariant of the two nested loops after the pairs `P` have been visited: the keys of
the map are distinct, every visited combination has its key in the map, and the function
stored under a key carries the instruction, a visited combination with that key, and one
copy of the form for every visited pair with that key, in the order of the visit. -/
structure GroupInv (i : Instruction) (P : List (Form × List String))
    (m : List (String × Function)) : Prop where
  nodup : (m.map Prod.fst).Nodup
  keys : ∀ p ∈ P, Join p.2 "." ∈ m.map Prod.fst
  entry : ∀ e ∈ m, e.2.Instruction = i ∧ Join e.2.Suffixes "." = e.1
    ∧ e.2.Suffixes ∈ P.map Prod.snd
    ∧ e.2.Forms = (P.filter (fun p => Join p.2 "." = e.1)).map Prod.fst

/-- The characters that follow the first token in the `.`-join of `a :: rest`. -/
def joinTail (rest : List (List Char)) (joined : List Char) : List Char :=
  if rest = [] then [] else '.' :: joined

/-- A suffix token that is not empty and holds no `.`. -/
def PlainToken (t : String) : Prop := t ≠ "" ∧ '.' ∉ t.data

instance (t : String) : Decidable (PlainToken t) :=
  inferInstanceAs (Decidable (t ≠ "" ∧ '.' ∉ t.data))

/-- Modelled from the spec: the tokens of the lists that the method `SupportedSuffixes` of
`inst.Form` (not among the sources) yields: a suffix is a token appended to the opcode, it
is not empty and holds no `.`, the separator of `Opcode()`. -/
def PlainSuffixes (f : Form) : Prop :=
  ∀ s ∈ f.SupportedSuffixes, ∀ t ∈ s, PlainToken t

instance (f : Form) : Decidable (PlainSuffixes f) :=
  inferInstanceAs (Decidable (∀ s ∈ f.SupportedSuffixes, ∀ t ∈ s, PlainToken t))

/-- Modelled from the spec: the lists that the method `SupportedSuffixes` of `inst.Form`
yields: plain tokens, and every suffix combination listed once. -/
def ProducedSuffixes (f : Form) : Prop :=
  PlainSuffixes f ∧ f.SupportedSuffixes.Nodup

instance (f : Form) : Decidable (ProducedSuffixes f) :=
  inferInstanceAs (Decidable (PlainSuffixes f ∧ f.SupportedSuffixes.Nodup))

/-! ### Example instructions -/

/-- Two forms whose suffix combinations `["A", "B"]` and `["A.B"]` differ as sequences of
tokens and have the same key `"A.B"`; not a list that `SupportedSuffixes` yields. -/
def exCollide : Instruction :=
  { Opcode := "OP", Summary := "",
    Forms := [⟨[⟨"r8"⟩], [["A", "B"]]⟩, ⟨[⟨"m8"⟩], [["A.B"]]⟩] }

/-- One form that lists the suffix combination `["Z"]` twice; not a list that
`SupportedSuffixes` yields. -/
def exRepeat : Instruction :=
  { Opcode := "OP", Summary := "", Forms := [⟨[⟨"r8"⟩], [["Z"], ["Z"]]⟩] }

/-- One form that supports `["Z"]` and then `["A"]`. -/
def exOrder : Instruction :=
  { Opcode := "OP", Summary := "", Forms := [⟨[⟨"r8"⟩], [["Z"], ["A"]]⟩] }

/-- An instruction with a form that supports broadcast and zeroing and a form that supports
zeroing: the suffix combinations are the empty one, `BCST`, `Z` and `BCST, Z`. -/
def exSuffixed : Instruction :=
  { Opcode := "VPADDD", Summary := "Add Packed Doubleword Integers",
    Forms := [⟨[⟨"m512"⟩, ⟨"zmm"⟩, ⟨"zmm"⟩], [[], ["BCST"], ["Z"], ["BCST", "Z"]]⟩,
              ⟨[⟨"zmm"⟩, ⟨"zmm"⟩, ⟨"zmm"⟩], [[], ["Z"]]⟩] }

/-! ## Operand model (operand/types.go) -/

/-- Modelled from the spec: `reg.Register` (package reg is not among the sources), an
identity of the register domain together with the text its method `Asm()` returns. -/
structure Register where
  ID : Nat
  Asm : String
deriving DecidableEq, Repr

/-- The struct `Symbol`. -/
structure Symbol where
  Name : String
  Static : Bool
deriving DecidableEq, Repr

/-- The method `Symbol.String`. -/
def Symbol.String (s : Symbol) : String :=
  let n := s.Name
  if s.Static then n ++ "<>" else n

/-- The struct `Mem`; a `nil` register is `none`. -/
structure Mem where
  Symbol : Symbol
  Disp : Int
  Base : Option Register
  Index : Option Register
  Scale : Nat
deriving DecidableEq, Repr

/-- The method `Mem.Asm` (lines 47-63). -/
def Mem.Asm (m : Mem) : String :=
  let a := m.Symbol.String
  let a :=
    if m.Disp ≠ 0 then
      if a = "" then a ++ Itoa m.Disp else a ++ ItoaPlus m.Disp
    else a
  let a :=
    match m.Base with
    | some base => a ++ ("(" ++ base.Asm ++ ")")
    | none => a
  let a :=
    match m.Index with
    | some index => if m.Scale ≠ 0 then a ++ ("(" ++ index.Asm ++ "*" ++ Itoa m.Scale ++ ")") else a
    | none => a
  a

/-! ### The rendering of a memory operand in the words of the specification -/

/-- Decimal digits of a natural number. -/
def decimal (n : Nat) : String := Nat.repr n

/-- The displacement part: nothing for 0; with the symbol text present the decimal value
with an explicit sign, without it the decimal value with a sign only when negative. -/
def dispText (symbolText : String) (disp : Int) : String :=
  if disp = 0 then ""
  else if symbolText ≠ "" then (if disp < 0 then "-" else "+") ++ decimal disp.natAbs
  else (if disp < 0 then "-" else "") ++ decimal disp.natAbs

/-- The base part: the base register in parentheses when present. -/
def baseText (base : Option Register) : String :=
  match base with
  | some r => "(" ++ r.Asm ++ ")"
  | none => ""

/-- The index part: index register, `*` and the decimal scale in parentheses, when the
index is present and the scale is not 0. -/
def indexText (index : Option Register) (scale : Nat) : String :=
  match index with
  | some r => if scale ≠ 0 then "(" ++ r.Asm ++ "*" ++ decimal scale ++ ")" else ""
  | none => ""

/-- The rendering of a memory operand as the specification words it: the concatenation of
symbol text, displacement part, base part and index part. -/
def Mem.asmSpec (m : Mem) : String :=
  m.Symbol.String ++ dispText m.Symbol.String m.Disp ++ baseText m.Base
    ++ indexText m.Index m.Scale

/-! ### Immediates, relative offsets, label references -/

/-- The type `Imm`, a `uint64`. -/
abbrev Imm := Nat

/-- The type `Rel`, an `int32`. -/
abbrev Rel := Int

/-- The type `LabelRef`, a `string`. -/
abbrev LabelRef := String

/-- The verb `%#x` of `fmt.Sprintf` on an unsigned integer: `0x` and the lowercase
hexadecimal digits. -/
def fmtHashX (v : Nat) : String := "0x" ++ String.mk (Nat.toDigits 16 v)

/-- The method `Imm.Asm`: `fmt.Sprintf("$%#x", i)`. -/
def Imm.Asm (i : Imm) : String := "$" ++ fmtHashX i

/-- The method `Rel.Asm`: `fmt.Sprintf(".%+d", r)`. -/
def Rel.Asm (r : Rel) : String := "." ++ ItoaPlus r

/-- The method `LabelRef.Asm`. -/
def LabelRef.Asm (l : LabelRef) : String := l

/-- The lowercase hexadecimal digits. -/
def hexChars : List Char :=
  ['0', '1', '2', '3', '4', '5', '6', '7', '8', '9', 'a', 'b', 'c', 'd', 'e', 'f']

/-- The value of a hexadecimal digit character. -/
def hexDigitValue (c : Char) : Nat :=
  if 97 ≤ c.toNat then c.toNat - 87 else c.toNat - 48

/-- The number written by a list of hexadecimal digit characters. -/
def hexValue (l : List Char) : Nat :=
  l.foldl (fun a c => 16 * a + hexDigitValue c) 0

/-! ### Operands, Registers, ApplyAllocation -/

/-- The interface `Op` as the type switches of the file see it: a register, a `Mem`, an
`Imm`, a `Rel`, a `LabelRef`, or any other implementation of the interface (of which only
the text of `Asm()` is kept). -/
inductive Op where
  | reg (r : Register)
  | mem (m : Mem)
  | imm (i : Imm)
  | rel (r : Rel)
  | label (l : LabelRef)
  | other (asm : String)
deriving DecidableEq, Repr

/-- The method `Asm` of the interface `Op`. -/
def Op.Asm : Op → String
  | Op.reg r => r.Asm
  | Op.mem m => m.Asm
  | Op.imm i => Imm.Asm i
  | Op.rel r => Rel.Asm r
  | Op.label l => LabelRef.Asm l
  | Op.other asm => asm

/-- The function `Registers` (lines 86-103); `none` is the panic `unknown operand type`. -/
def Registers : Op → Option (List Register)
  | Op.reg op => some [op]
  | Op.mem op =>
    let r : List Register := []
    let r := match op.Base with
      | some base => r ++ [base]
      | none => r
    let r := match op.Index with
      | some index => r ++ [index]
      | none => r
    some r
  | Op.imm _ => some []
  | Op.rel _ => some []
  | Op.label _ => some []
  | Op.other _ => none

/-- Modelled from the spec: `reg.Allocation` (package reg is not among the sources), a
mapping from register identity to register identity; `none` is a missing entry. -/
abbrev Allocation := Register → Option Register

/-- Modelled from the spec: the method `LookupDefault` of `reg.Allocation`: the mapped
value of the register, or the register itself when the allocation has no entry for it. -/
def Allocation.LookupDefault (a : Allocation) (r : Register) : Register :=
  match a r with
  | some p => p
  | none => r

/-- The call `a.LookupDefault(r)` on a register field of a `Mem`, which may be `nil`: the
allocation maps register identities, so `nil` has no entry and comes back as `nil`. -/
def Allocation.LookupDefaultField (a : Allocation) (r : Option Register) : Option Register :=
  match r with
  | some x => some (a.LookupDefault x)
  | none => none

/-- The function `ApplyAllocation` (lines 106-116). -/
def ApplyAllocation (op : Op) (a : Allocation) : Op :=
  match op with
  | Op.reg op => Op.reg (a.LookupDefault op)
  | Op.mem op =>
    let op := { op with Base := a.LookupDefaultField op.Base }
    let op := { op with Index := a.LookupDefaultField op.Index }
    Op.mem op
  | op => op

/-! ### Example operands -/

/-- An allocation with the one entry `v1 ↦ AX`. -/
def exAlloc : Allocation :=
  fun r => if r = ⟨1, "v1"⟩ then some ⟨100, "AX"⟩ else none

/-- A memory operand with base `v1`, index `v2` and scale 0. -/
def exMem : Mem :=
  { Symbol := ⟨"foo", true⟩, Disp := 16, Base := some ⟨1, "v1"⟩, Index := some ⟨2, "v2"⟩,
    Scale := 0 }

/-! ## Validation arguments (internal/gen/ctorstest.go) -/

/-- The map literal `validArgs` (lines 73-120), entries in source order. -/
def validArgs : List (String × List String) :=
  [ -- Immediates
    ("1", ["operand.Imm(1)"]),
    ("3", ["operand.Imm(3)"]),
    ("imm2u", ["operand.Imm(1)", "operand.Imm(3)"]),
    ("imm8", ["operand.Imm(math.MaxInt8)"]),
    ("imm16", ["operand.Imm(math.MaxInt16)"]),
    ("imm32", ["operand.Imm(math.MaxInt32)"]),
    ("imm64", ["operand.Imm(math.MaxInt64)"]),
    -- Registers
    ("al", ["reg.AL"]),
    ("cl", ["reg.CL"]),
    ("ax", ["reg.AX"]),
    ("eax", ["reg.EAX"]),
    ("rax", ["reg.RAX"]),
    ("r8", ["reg.CH", "reg.BL", "reg.R13B"]),
    ("r16", ["reg.CX", "reg.R9W"]),
    ("r32", ["reg.R10L"]),
    ("r64", ["reg.R11"]),
    ("xmm0", ["reg.X0"]),
    ("xmm", ["reg.X7"]),
    ("ymm", ["reg.Y15"]),
    ("zmm", ["reg.Z31"]),
    ("k", ["reg.K7"]),
    -- Memory
    ("m", ["operand.Mem\x7bBase: reg.BX, Index: reg.CX, Scale: 2\x7d"]),
    ("m8", ["operand.Mem\x7bBase: reg.BL, Index: reg.CH, Scale: 1\x7d"]),
    ("m16", ["operand.Mem\x7bBase: reg.BX, Index: reg.CX, Scale: 2\x7d"]),
    ("m32", ["operand.Mem\x7bBase: reg.EBX, Index: reg.ECX, Scale: 4\x7d"]),
    ("m64", ["operand.Mem\x7bBase: reg.RBX, Index: reg.RCX, Scale: 8\x7d"]),
    ("m128", ["operand.Mem\x7bBase: reg.RBX, Index: reg.RCX, Scale: 8\x7d"]),
    ("m256", ["operand.Mem\x7bBase: reg.RBX, Index: reg.RCX, Scale: 8\x7d"]),
    ("m512", ["operand.Mem\x7bBase: reg.RBX, Index: reg.RCX, Scale: 8\x7d"]),
    -- Vector memory
    ("vm32x", ["operand.Mem\x7bBase: reg.R13, Index: reg.X4, Scale: 1\x7d"]),
    ("vm64x", ["operand.Mem\x7bBase: reg.R13, Index: reg.X8, Scale: 1\x7d"]),
    ("vm32y", ["operand.Mem\x7bBase: reg.R13, Index: reg.Y4, Scale: 1\x7d"]),
    ("vm64y", ["operand.Mem\x7bBase: reg.R13, Index: reg.Y8, Scale: 1\x7d"]),
    ("vm32z", ["operand.Mem\x7bBase: reg.R13, Index: reg.Z4, Scale: 1\x7d"]),
    ("vm64z", ["operand.Mem\x7bBase: reg.R13, Index: reg.Z8, Scale: 1\x7d"]),
    -- Relative
    ("rel8", ["operand.Rel(math.MaxInt8)"]),
    ("rel32", ["operand.Rel(math.MaxInt32)", "operand.LabelRef(\"lbl\")"]) ]

/-- The loop of `validFormArgs` (lines 61-69) over the operands in position order:
`valid, ok := validArgs[op.Type]`, a panic with its message when `!ok`, else
`args[i] = valid`.  The error value is the panic message. -/
def formArgs : List Operand → Except String (List (List String))
  | [] => Except.ok []
  | op :: rest =>
    match validArgs.lookup op.Typ with
    | none => Except.error ("missing operands for type " ++ op.Typ)
    | some valid =>
      match formArgs rest with
      | Except.ok args => Except.ok (valid :: args)
      | Except.error e => Except.error e

/-- Modelled from the spec: the function `cross` of package gen (its file is not among the
sources): the cartesian product over the per-position lists, in position order, keeping
the order of every list; the first position varies slowest. -/
def cross : List (List String) → List (List String)
  | [] => [[]]
  | s :: rest => s.flatMap (fun a => (cross rest).map (fun tail => a :: tail))

/-- The function `validFormArgs` (lines 60-71): `cross(args)`. -/
def validFormArgs (f : Form) : Except String (List (List String)) :=
  match formArgs f.Operands with
  | Except.ok args => Except.ok (cross args)
  | Except.error e => Except.error e

/-- A form `(r8, imm2u)`. -/
def exForm : Form := ⟨[⟨"r8"⟩, ⟨"imm2u"⟩], [[]]⟩

/-- A form `(r8, imm3u, bad)` whose second and third type tags are not in the catalog. -/
def exBadForm : Form := ⟨[⟨"r8"⟩, ⟨"imm3u"⟩, ⟨"bad"⟩], [[]]⟩

/-! # Theorems -/

/-! ## Name and Opcode -/

theorem Join_cons_append (a sep b : String) (rest : List String) :
    Join ((a ++ sep ++ b) :: rest) sep = a ++ sep ++ Join (b :: rest) sep := by
  cases rest with
  | nil => simp [Join]
  | cons c r => simp [Join, String.append_assoc]

theorem foldl_eq_Join (sep : String) (l : List String) (a : String) :
    l.foldl (fun n suffix => (n ++ sep) ++ suffix) a = Join (a :: l) sep := by
  induction l generalizing a with
  | nil => simp [Join]
  | cons b rest ih => rw [List.foldl_cons, ih, Join_cons_append]; rfl

theorem foldl_eq_suffixed (sep : String) (l : List String) (a : String) :
    l.foldl (fun n suffix => (n ++ sep) ++ suffix) a = a ++ suffixed sep l := by
  induction l generalizing a with
  | nil => simp [suffixed]
  | cons b rest ih => rw [List.foldl_cons, ih]; simp [suffixed, String.append_assoc]

/-- C5: `Name()` is the opcode joined with the suffix tokens by `_` and `Opcode()` the same
join by `.`, that is the opcode followed, for each suffix in order, by the separator and the
suffix; with no suffix both are the bare opcode. -/
theorem name_opcode_join (f : Function) :
    f.Name = Join (f.Instruction.Opcode :: f.Suffixes) "_"
    ∧ f.Opcode = Join (f.Instruction.Opcode :: f.Suffixes) "."
    ∧ f.Name = f.Instruction.Opcode ++ suffixed "_" f.Suffixes
    ∧ f.Opcode = f.Instruction.Opcode ++ suffixed "." f.Suffixes
    ∧ (∀ (i : Instruction) (forms : Forms),
        Function.Name ⟨i, [], forms⟩ = i.Opcode ∧ Function.Opcode ⟨i, [], forms⟩ = i.Opcode) :=
  ⟨foldl_eq_Join "_" f.Suffixes _, foldl_eq_Join "." f.Suffixes _,
   foldl_eq_suffixed "_" f.Suffixes _, foldl_eq_suffixed "." f.Suffixes _,
   fun _ _ => ⟨rfl, rfl⟩⟩

/-! ## Arity classification -/

theorem length_gt_one_of_mem_ne (l : List Nat) (x y : Nat) (hx : x ∈ l) (hy : y ∈ l)
    (hxy : x ≠ y) : 1 < l.length := by
  cases l with
  | nil => simp at hx
  | cons a t =>
    cases t with
    | nil =>
      rw [List.mem_singleton] at hx hy
      exact absurd (hx.trans hy.symm) hxy
    | cons b t => simp

theorem dedup_of_all_eq (c : Nat) (l : List Nat) (hne : l ≠ []) (h : ∀ x ∈ l, x = c) :
    l.dedup = [c] := by
  induction l with
  | nil => exact absurd rfl hne
  | cons x t ih =>
    have hx : x = c := h x (List.mem_cons_self _ _)
    subst hx
    cases t with
    | nil => rfl
    | cons y t =>
      have hy : y = x := h y (List.mem_cons_of_mem _ (List.mem_cons_self _ _))
      have hmem : x ∈ y :: t := by rw [hy]; exact List.mem_cons_self _ _
      rw [List.dedup_cons_of_mem hmem]
      exact ih (by simp) (fun z hz => h z (List.mem_cons_of_mem _ hz))

theorem isVariadic_of_differ (fs : Forms) (a b : Form) (ha : a ∈ fs) (hb : b ∈ fs)
    (hne : a.Operands.length ≠ b.Operands.length) : Forms.IsVariadic fs = true := by
  unfold Forms.IsVariadic Forms.Arities
  rw [decide_eq_true_eq]
  apply length_gt_one_of_mem_ne _ a.Operands.length b.Operands.length _ _ hne
  · rw [List.mem_dedup]; exact List.mem_map.2 ⟨a, ha, rfl⟩
  · rw [List.mem_dedup]; exact List.mem_map.2 ⟨b, hb, rfl⟩

theorem arities_of_uniform (fs : Forms) (n : Nat) (hne : fs ≠ [])
    (h : ∀ form ∈ fs, form.Operands.length = n) : Forms.Arities fs = [n] := by
  unfold Forms.Arities
  apply dedup_of_all_eq
  · simpa using hne
  · intro x hx
    obtain ⟨form, hform, rfl⟩ := List.mem_map.1 hx
    exact h form hform

theorem uniform_of_not_variadic (fs : Forms) (n : Nat) (hv : Forms.IsVariadic fs = false)
    (hA : Forms.Arity fs = (n : Int)) : ∀ form ∈ fs, form.Operands.length = n := by
  intro form hform
  have hmem : form.Operands.length ∈ Forms.Arities fs := by
    unfold Forms.Arities
    rw [List.mem_dedup]; exact List.mem_map.2 ⟨form, hform, rfl⟩
  unfold Forms.IsVariadic at hv
  rw [decide_eq_false_iff_not] at hv
  unfold Forms.Arity at hA
  cases hl : Forms.Arities fs with
  | nil => rw [hl] at hmem; simp at hmem
  | cons a t =>
    rw [hl] at hv hA hmem
    cases t with
    | nil =>
      rw [List.mem_singleton] at hmem
      simp only at hA
      omega
    | cons b t => simp at hv

/-- C4: `Signature()` classifies before naming.  Whatever the two arity tests answer,
forms found variadic give the single parameter `ops` even when the niladic test holds too,
non-variadic forms found niladic give the empty parameter list `niladic`, and a list of
per-position names is returned only when neither test holds.  With the tests of `inst.Forms`
as modelled: forms of differing operand counts give `ops`, and a non-empty list of forms
without operands gives the empty parameter list. -/
theorem signature_classifies (q : ArityQueries) (f : Function) :
    (q.IsVariadic f.Forms = true → f.Signature q = some (Signature.variadic "ops"))
    ∧ (q.IsVariadic f.Forms = false → q.IsNiladic f.Forms = true →
        f.Signature q = some Signature.niladic)
    ∧ (∀ ops, f.Signature q = some (Signature.argslist ops) →
        q.IsVariadic f.Forms = false ∧ q.IsNiladic f.Forms = false)
    ∧ ((∃ a ∈ f.Forms, ∃ b ∈ f.Forms, a.Operands.length ≠ b.Operands.length) →
        f.Signature exQueries = some (Signature.variadic "ops"))
    ∧ (f.Forms ≠ [] → (∀ form ∈ f.Forms, form.Operands = []) →
        Forms.IsVariadic f.Forms = false ∧ Forms.IsNiladic f.Forms = true
        ∧ f.Signature exQueries = some Signature.niladic) := by
  refine ⟨fun hv => ?_, fun hv hn => ?_, fun ops h => ?_, ?_, fun hne hno => ?_⟩
  · simp [Function.Signature, hv]
  · simp [Function.Signature, hv, hn]
  · cases hv : q.IsVariadic f.Forms
    · cases hn : q.IsNiladic f.Forms
      · exact ⟨rfl, rfl⟩
      · simp [Function.Signature, hv, hn] at h
    · simp [Function.Signature, hv] at h
  · rintro ⟨a, ha, b, hb, hne⟩
    have hv : exQueries.IsVariadic f.Forms = true := isVariadic_of_differ f.Forms a b ha hb hne
    simp [Function.Signature, hv]
  · have har : Forms.Arities f.Forms = [0] :=
      arities_of_uniform f.Forms 0 hne (fun form hform => by rw [hno form hform]; rfl)
    have hv : Forms.IsVariadic f.Forms = false := by
      unfold Forms.IsVariadic; rw [har]; rfl
    have hn : Forms.IsNiladic f.Forms = true := by
      unfold Forms.IsNiladic; rw [har]; rfl
    have hv2 : exQueries.IsVariadic f.Forms = false := hv
    have hn2 : exQueries.IsNiladic f.Forms = true := hn
    exact ⟨hv, hn, by simp [Function.Signature, hv2, hn2]⟩

theorem signature_classifies_witness :
    exShort.Signature exQueries = some (Signature.variadic "ops")
    ∧ (Forms.IsVariadic exCPUID.Forms = false ∧ Forms.IsNiladic exCPUID.Forms = true
        ∧ exCPUID.Signature exQueries = some Signature.niladic)
    ∧ exCPUID.Name = "CPUID"
    ∧ (exQueries.IsVariadic exRR.Forms = false ∧ exQueries.IsNiladic exRR.Forms = false)
    ∧ exRR.Signature exQueries = some (Signature.argslist ["r", "r1"]) :=
  ⟨(signature_classifies exQueries exShort).2.2.2.1
      ⟨⟨[⟨"r8"⟩, ⟨"r8"⟩], [[]]⟩, by decide, ⟨[⟨"r16"⟩], [[]]⟩, by decide, by decide⟩,
   (signature_classifies exQueries exCPUID).2.2.2.2 (by decide) (by decide),
   by decide,
   (signature_classifies exQueries exRR).2.2.1 ["r", "r1"] (by decide),
   by decide⟩

/-! ## Memory operands -/

theorem Itoa_natCast (n : Nat) : Itoa (n : Int) = Nat.repr n := by
  have h : ¬ ((n : Int) < 0) := by omega
  simp [Itoa, h]

/-- C10: `Asm` of a memory operand is the concatenation of the symbol text, the displacement
part (absent for 0, signed when the symbol text is non-empty, with only a `-` otherwise), the
parenthesised base when present, and the parenthesised `index*scale` when the index is present
and the scale is not 0; with the two renderings of the specification as instances. -/
theorem mem_asm_eq_spec (m : Mem) :
    m.Asm = m.asmSpec
    ∧ Mem.Asm ⟨⟨"foo", true⟩, 16, some ⟨3, "BX"⟩, none, 0⟩ = "foo<>+16(BX)"
    ∧ Mem.Asm ⟨⟨"", false⟩, -8, some ⟨4, "SP"⟩, none, 0⟩ = "-8(SP)" := by
  refine ⟨?_, by decide, by decide⟩
  obtain ⟨sym, disp, base, index, scale⟩ := m
  simp only [Mem.Asm, Mem.asmSpec, dispText, baseText, indexText, Itoa_natCast]
  simp only [Itoa, ItoaPlus, decimal]
  by_cases hd : disp = 0
  · subst hd
    cases base <;> cases index <;> by_cases hs : scale = 0 <;> simp [hs]
  · by_cases hsym : sym.String = ""
    · by_cases hneg : disp < 0 <;>
        cases base <;> cases index <;> by_cases hs : scale = 0 <;>
          simp [hs, hd, hsym, hneg, String.append_assoc]
    · by_cases hneg : disp < 0 <;>
        cases base <;> cases index <;> by_cases hs : scale = 0 <;>
          simp [hs, hd, hsym, hneg, String.append_assoc]

/-! ## Sorting of the returned functions -/

theorem nameLE_iff (a b : Function) : nameLE a b ↔ a.Name ≤ b.Name :=
  String.le_iff_toList_le.symm

theorem SortFunctions_sorted (fns : List Function) :
    (SortFunctions fns).Sorted (fun a b => a.Name ≤ b.Name) :=
  (List.sorted_insertionSort nameLE fns).imp (fun h => (nameLE_iff _ _).1 h)

theorem SortFunctions_perm (fns : List Function) : (SortFunctions fns).Perm fns :=
  List.perm_insertionSort nameLE fns

theorem foldl_append_eq_flatMap (is : List Instruction) (acc : List Function) :
    is.foldl (fun all i => all ++ InstructionFunctions i) acc
      = acc ++ is.flatMap InstructionFunctions := by
  induction is generalizing acc with
  | nil => simp
  | cons i rest ih => rw [List.foldl_cons, ih]; simp

/-- C8: the list returned by `InstructionsFunctions` is ascending by `Name` and a permutation
of the functions built for the single instructions; the list returned by
`InstructionFunctions` is ascending by `Name` and a permutation of the functions stored in
the map `bysuffix`. -/
theorem functions_sorted_perm (is : List Instruction) (i : Instruction) :
    (InstructionsFunctions is).Sorted (fun a b => a.Name ≤ b.Name)
    ∧ (InstructionsFunctions is).Perm (is.flatMap InstructionFunctions)
    ∧ (InstructionFunctions i).Sorted (fun a b => a.Name ≤ b.Name)
    ∧ (InstructionFunctions i).Perm ((bysuffix i).map Prod.snd) := by
  refine ⟨SortFunctions_sorted _, ?_, SortFunctions_sorted _, SortFunctions_perm _⟩
  have h := SortFunctions_perm (is.foldl (fun all i => all ++ InstructionFunctions i) [])
  rw [foldl_append_eq_flatMap, List.nil_append] at h
  unfold InstructionsFunctions
  rw [foldl_append_eq_flatMap, List.nil_append]
  exact h

/-! ## Grouping of the forms by suffix combination -/

theorem foldl_flatMap_pairs (i : Instruction) (fs : Forms) (acc : List (String × Function)) :
    fs.foldl (fun m f => f.SupportedSuffixes.foldl (addSuffixes i f) m) acc
      = (fs.flatMap (fun f => f.SupportedSuffixes.map (fun s => (f, s)))).foldl
          (fun m p => addSuffixes i p.1 m p.2) acc := by
  induction fs generalizing acc with
  | nil => rfl
  | cons f rest ih =>
    rw [List.foldl_cons, ih, List.flatMap_cons, List.foldl_append, List.foldl_map]

theorem bysuffix_eq_foldl (i : Instruction) :
    bysuffix i = (scanPairs i).foldl (fun m p => addSuffixes i p.1 m p.2) [] :=
  foldl_flatMap_pairs i i.Forms []

theorem appendForm_eq_map (k : String) (f : Form) (m : List (String × Function))
    (h : (m.map Prod.fst).Nodup) :
    appendForm k f m
      = m.map (fun e => if e.1 = k then (e.1, { e.2 with Forms := e.2.Forms ++ [f] }) else e) := by
  induction m with
  | nil => rfl
  | cons e rest ih =>
    obtain ⟨k1, fn⟩ := e
    rw [List.map_cons, List.nodup_cons] at h
    by_cases hk : k1 = k
    · subst hk
      have hrest : rest.map (fun e => if e.1 = k1
          then (e.1, { e.2 with Forms := e.2.Forms ++ [f] }) else e) = rest := by
        conv_rhs => rw [← List.map_id rest]
        apply List.map_congr_left
        intro e he
        have hne : e.1 ≠ k1 := by
          intro heq
          apply h.1
          rw [← heq]
          exact List.mem_map.2 ⟨e, he, rfl⟩
        simp [hne]
      simp [appendForm, hrest]
    · simp [appendForm, hk, ih h.2]

theorem lookup_isNone_iff (k : String) (m : List (String × Function)) :
    (m.lookup k).isNone = true ↔ k ∉ m.map Prod.fst := by
  induction m with
  | nil => simp
  | cons e rest ih =>
    obtain ⟨k1, fn⟩ := e
    by_cases hk : k = k1
    · subst hk; simp [List.lookup]
    · have hb : (k == k1) = false := by simpa using hk
      simp [List.lookup, hb, ih, hk]

theorem GroupInv.step {i : Instruction} {P : List (Form × List String)}
    {m : List (String × Function)} (h : GroupInv i P m) (f : Form) (s : List String) :
    GroupInv i (P ++ [(f, s)]) (addSuffixes i f m s) := by
  -- the map once a missing key has been inserted
  have key : ∃ m1 : List (String × Function),
      addSuffixes i f m s = appendForm (Join s ".") f m1
      ∧ (m1.map Prod.fst).Nodup
      ∧ (∀ p ∈ P ++ [(f, s)], Join p.2 "." ∈ m1.map Prod.fst)
      ∧ (∀ e ∈ m1, e.2.Instruction = i ∧ Join e.2.Suffixes "." = e.1
          ∧ e.2.Suffixes ∈ (P ++ [(f, s)]).map Prod.snd
          ∧ e.2.Forms = (P.filter (fun p => Join p.2 "." = e.1)).map Prod.fst) := by
    by_cases hin : Join s "." ∈ m.map Prod.fst
    · refine ⟨m, ?_, h.nodup, ?_, ?_⟩
      · have hl : ¬ ((m.lookup (Join s ".")).isNone = true) := by
          rw [lookup_isNone_iff]; exact not_not.2 hin
        simp [addSuffixes, hl]
      · intro p hp
        rcases List.mem_append.1 hp with hp | hp
        · exact h.keys p hp
        · rw [List.mem_singleton] at hp; subst hp; exact hin
      · intro e he
        obtain ⟨h1, h2, h3, h4⟩ := h.entry e he
        refine ⟨h1, h2, ?_, h4⟩
        rw [List.map_append]; exact List.mem_append_left _ h3
    · refine ⟨m ++ [(Join s ".", ⟨i, s, []⟩)], ?_, ?_, ?_, ?_⟩
      · have hl : (m.lookup (Join s ".")).isNone = true := by
          rw [lookup_isNone_iff]; exact hin
        simp [addSuffixes, hl]
      · rw [List.map_append, List.nodup_append]
        refine ⟨h.nodup, by simp, ?_⟩
        intro a ha hb
        simp at hb
        subst hb
        exact hin ha
      · intro p hp
        rw [List.map_append]
        rcases List.mem_append.1 hp with hp | hp
        · exact List.mem_append_left _ (h.keys p hp)
        · rw [List.mem_singleton] at hp; subst hp; simp
      · intro e he
        rcases List.mem_append.1 he with he | he
        · obtain ⟨h1, h2, h3, h4⟩ := h.entry e he
          refine ⟨h1, h2, ?_, h4⟩
          rw [List.map_append]; exact List.mem_append_left _ h3
        · rw [List.mem_singleton] at he; subst he
          refine ⟨rfl, rfl, by simp, ?_⟩
          have hnone : P.filter (fun p => Join p.2 "." = Join s ".") = [] := by
            rw [List.filter_eq_nil_iff]
            intro p hp hpk
            simp only [decide_eq_true_eq] at hpk
            exact hin (hpk ▸ h.keys p hp)
          simp [hnone]
  obtain ⟨m1, hres, h1nodup, h1keys, h1entry⟩ := key
  rw [hres, appendForm_eq_map _ _ _ h1nodup]
  refine ⟨?_, ?_, ?_⟩
  · have hk : (m1.map (fun e => if e.1 = Join s "."
        then (e.1, { e.2 with Forms := e.2.Forms ++ [f] }) else e)).map Prod.fst
        = m1.map Prod.fst := by
      rw [List.map_map]
      apply List.map_congr_left
      intro e _
      by_cases he : e.1 = Join s "." <;> simp [he]
    rw [hk]; exact h1nodup
  · intro p hp
    have hk : (m1.map (fun e => if e.1 = Join s "."
        then (e.1, { e.2 with Forms := e.2.Forms ++ [f] }) else e)).map Prod.fst
        = m1.map Prod.fst := by
      rw [List.map_map]
      apply List.map_congr_left
      intro e _
      by_cases he : e.1 = Join s "." <;> simp [he]
    rw [hk]; exact h1keys p hp
  · intro e1 he1
    obtain ⟨e, he, rfl⟩ := List.mem_map.1 he1
    obtain ⟨h1, h2, h3, h4⟩ := h1entry e he
    by_cases hek : e.1 = Join s "."
    · simp only [hek, if_true]
      refine ⟨h1, by rw [h2, hek], h3, ?_⟩
      simp only [List.filter_append, List.map_append]
      rw [h4, hek]
      simp
    · simp only [hek, if_false]
      refine ⟨h1, h2, h3, ?_⟩
      simp only [List.filter_append, List.map_append]
      rw [h4]
      have : ¬ (Join s "." = e.1) := fun hh => hek hh.symm
      simp [this]

theorem GroupInv.foldl (i : Instruction) (P : List (Form × List String)) :
    GroupInv i P (P.foldl (fun m p => addSuffixes i p.1 m p.2) []) := by
  induction P using List.reverseRecOn with
  | nil => exact ⟨by simp, by simp, by simp⟩
  | append_singleton P p ih =>
    rw [List.foldl_append]
    exact ih.step p.1 p.2

theorem GroupInv.bysuffix (i : Instruction) : GroupInv i (scanPairs i) (bysuffix i) := by
  rw [bysuffix_eq_foldl]; exact GroupInv.foldl i _

theorem scanPairs_snd (i : Instruction) : (scanPairs i).map Prod.snd = scannedSuffixes i := by
  unfold scanPairs scannedSuffixes
  induction i.Forms with
  | nil => rfl
  | cons f rest ih =>
    rw [List.flatMap_cons, List.flatMap_cons, List.map_append, ih, List.map_map]
    congr 1
    exact List.map_id _

theorem mem_InstructionFunctions (i : Instruction) (fn : Function) :
    fn ∈ InstructionFunctions i ↔ fn ∈ (bysuffix i).map Prod.snd :=
  (SortFunctions_perm _).mem_iff

theorem mem_keys_iff (i : Instruction) (k : String) :
    k ∈ (bysuffix i).map Prod.fst ↔ k ∈ (scannedSuffixes i).map (fun s => Join s ".") := by
  have h := GroupInv.bysuffix i
  constructor
  · intro hk
    obtain ⟨e, he, rfl⟩ := List.mem_map.1 hk
    obtain ⟨_, h2, h3, _⟩ := h.entry e he
    rw [scanPairs_snd] at h3
    exact List.mem_map.2 ⟨e.2.Suffixes, h3, h2⟩
  · intro hk
    obtain ⟨s, hs, rfl⟩ := List.mem_map.1 hk
    rw [← scanPairs_snd] at hs
    obtain ⟨p, hp, rfl⟩ := List.mem_map.1 hs
    exact h.keys p hp

theorem length_InstructionFunctions (i : Instruction) :
    (InstructionFunctions i).length
      = ((scannedSuffixes i).map (fun s => Join s ".")).dedup.length := by
  have h := GroupInv.bysuffix i
  unfold InstructionFunctions
  rw [(SortFunctions_perm _).length_eq, List.length_map, ← List.length_map (bysuffix i) Prod.fst]
  apply List.Perm.length_eq
  rw [List.perm_ext_iff_of_nodup h.nodup (List.nodup_dedup _)]
  intro k
  rw [List.mem_dedup]
  exact mem_keys_iff i k

theorem dedup_length_map_of_injOn {α β : Type} [DecidableEq α] [DecidableEq β] (g : α → β)
    (l : List α) (hg : ∀ a ∈ l, ∀ b ∈ l, g a = g b → a = b) :
    (l.map g).dedup.length = l.dedup.length := by
  have himg : (l.map g).toFinset = l.toFinset.image g := by
    ext b; simp
  rw [← List.card_toFinset, ← List.card_toFinset, himg]
  apply Finset.card_image_of_injOn
  intro a ha b hb hab
  exact hg a (List.mem_toFinset.1 ha) b (List.mem_toFinset.1 hb) hab

theorem suffixes_nodup (i : Instruction) :
    ((InstructionFunctions i).map Function.Suffixes).Nodup := by
  have h := GroupInv.bysuffix i
  unfold InstructionFunctions
  rw [((SortFunctions_perm _).map Function.Suffixes).nodup_iff]
  apply List.Nodup.of_map (fun s => Join s ".")
  have hk : (((bysuffix i).map Prod.snd).map Function.Suffixes).map (fun s => Join s ".")
      = (bysuffix i).map Prod.fst := by
    rw [List.map_map, List.map_map]
    apply List.map_congr_left
    intro e he
    exact (h.entry e he).2.1
  rw [hk]; exact h.nodup

theorem filter_pairs_of_nodup (f : Form) (s : List String) (l : List (List String))
    (hl : l.Nodup) :
    ((l.map (fun t => (f, t))).filter (fun p => p.2 = s)).map Prod.fst
      = if s ∈ l then [f] else [] := by
  induction l with
  | nil => simp
  | cons a rest ih =>
    rw [List.nodup_cons] at hl
    by_cases ha : a = s
    · subst ha
      have h := ih hl.2
      rw [if_neg hl.1] at h
      simp [List.filter_cons, h]
    · have ha2 : ¬ (s = a) := fun hh => ha hh.symm
      simp [List.filter_cons, ha, ha2, ih hl.2]

theorem filter_scan_of_nodup (s : List String) (fs : Forms)
    (hnodup : ∀ f ∈ fs, f.SupportedSuffixes.Nodup) :
    (((fs.flatMap (fun f => f.SupportedSuffixes.map (fun t => (f, t)))).filter
        (fun p => p.2 = s)).map Prod.fst)
      = fs.filter (fun f => s ∈ f.SupportedSuffixes) := by
  induction fs with
  | nil => rfl
  | cons f rest ih =>
    have hf := hnodup f (List.mem_cons_self _ _)
    have hrest := ih (fun g hg => hnodup g (List.mem_cons_of_mem _ hg))
    rw [List.flatMap_cons, List.filter_append, List.map_append, hrest,
      filter_pairs_of_nodup f s _ hf]
    by_cases hs : s ∈ f.SupportedSuffixes <;> simp [List.filter_cons, hs]

/-- When the suffix combinations of an instruction have pairwise distinct keys (`.`-joins)
and no form lists a combination twice, then for every supported combination `s` a function
with `Suffixes = s` is returned, its forms are exactly the forms of the instruction that
support `s`, in instruction order; and every form that supports some combination is in a
returned function. -/
theorem forms_of_keyed_function (i : Instruction) (s : List String)
    (hinj : ∀ s1 ∈ scannedSuffixes i, ∀ s2 ∈ scannedSuffixes i,
      Join s1 "." = Join s2 "." → s1 = s2)
    (hnodup : ∀ f ∈ i.Forms, f.SupportedSuffixes.Nodup)
    (hs : s ∈ scannedSuffixes i) :
    (∃ fn ∈ InstructionFunctions i, fn.Suffixes = s)
    ∧ (∀ fn ∈ InstructionFunctions i, fn.Suffixes = s →
        fn.Forms = i.Forms.filter (fun f => s ∈ f.SupportedSuffixes))
    ∧ (∀ f ∈ i.Forms, f.SupportedSuffixes ≠ [] →
        ∃ fn ∈ InstructionFunctions i, f ∈ fn.Forms) := by
  have h := GroupInv.bysuffix i
  refine ⟨?_, ?_, ?_⟩
  · have hk : Join s "." ∈ (bysuffix i).map Prod.fst :=
      (mem_keys_iff i _).2 (List.mem_map.2 ⟨s, hs, rfl⟩)
    obtain ⟨e, he, hek⟩ := List.mem_map.1 hk
    obtain ⟨_, h2, h3, _⟩ := h.entry e he
    rw [scanPairs_snd] at h3
    refine ⟨e.2, (mem_InstructionFunctions i _).2 (List.mem_map.2 ⟨e, he, rfl⟩), ?_⟩
    exact hinj _ h3 _ hs (h2.trans hek)
  · intro fn hfn hfs
    obtain ⟨e, he, rfl⟩ := List.mem_map.1 ((mem_InstructionFunctions i _).1 hfn)
    obtain ⟨_, h2, _, h4⟩ := h.entry e he
    rw [h4, ← filter_scan_of_nodup s i.Forms hnodup]
    congr 1
    apply List.filter_congr
    intro p hp
    have hp2 : p.2 ∈ scannedSuffixes i := by
      rw [← scanPairs_snd]; exact List.mem_map.2 ⟨p, hp, rfl⟩
    rw [← h2, hfs]
    by_cases hps : p.2 = s
    · simp [hps]
    · have : ¬ (Join p.2 "." = Join s ".") := fun hh => hps (hinj _ hp2 _ hs hh)
      simp [hps, this]
  · intro f hf hne
    obtain ⟨t, rest, ht⟩ := List.exists_cons_of_ne_nil hne
    have hp : (f, t) ∈ scanPairs i := by
      unfold scanPairs
      rw [List.mem_flatMap]
      exact ⟨f, hf, List.mem_map.2 ⟨t, by simp [ht], rfl⟩⟩
    obtain ⟨e, he, hek⟩ := List.mem_map.1 (h.keys _ hp)
    refine ⟨e.2, (mem_InstructionFunctions i _).2 (List.mem_map.2 ⟨e, he, rfl⟩), ?_⟩
    rw [(h.entry e he).2.2.2]
    refine List.mem_map.2 ⟨(f, t), ?_, rfl⟩
    rw [List.mem_filter]
    exact ⟨hp, by simpa using hek.symm⟩

/-- The model of a form admits any list of suffix combinations.  On two lists that
`SupportedSuffixes` does not yield the grouping departs from the supported forms: in
`exCollide` (a token holding `.`) the function with `Suffixes = ["A", "B"]` also holds the
form that supports only `["A.B"]`, and in `exRepeat` (a combination listed twice) the function
with `Suffixes = ["Z"]` holds the one supporting form twice.  This is why the theorems on the
grouping assume `ProducedSuffixes`. -/
theorem shared_key_example :
    (["A", "B"] ∈ scannedSuffixes exCollide
      ∧ ∃ fn ∈ InstructionFunctions exCollide, fn.Suffixes = ["A", "B"]
        ∧ fn.Forms ≠ exCollide.Forms.filter (fun f => ["A", "B"] ∈ f.SupportedSuffixes)
        ∧ ∃ f ∈ fn.Forms, ["A", "B"] ∉ f.SupportedSuffixes)
    ∧ (["Z"] ∈ scannedSuffixes exRepeat
      ∧ ∃ fn ∈ InstructionFunctions exRepeat, fn.Suffixes = ["Z"]
        ∧ fn.Forms ≠ exRepeat.Forms.filter (fun f => ["Z"] ∈ f.SupportedSuffixes)
        ∧ fn.Forms = [⟨[⟨"r8"⟩], [["Z"], ["Z"]]⟩, ⟨[⟨"r8"⟩], [["Z"], ["Z"]]⟩]) := by
  decide

/-- When the suffix combinations of an instruction have pairwise distinct keys (`.`-joins),
`InstructionFunctions` returns as many functions as there are distinct suffix combinations,
no two of them with the same `Suffixes`, and the `Suffixes` that occur are exactly the
supported combinations. -/
theorem one_function_per_key (i : Instruction)
    (hinj : ∀ s1 ∈ scannedSuffixes i, ∀ s2 ∈ scannedSuffixes i,
      Join s1 "." = Join s2 "." → s1 = s2) :
    (InstructionFunctions i).length = (scannedSuffixes i).dedup.length
    ∧ ((InstructionFunctions i).map Function.Suffixes).Nodup
    ∧ ∀ s, s ∈ (InstructionFunctions i).map Function.Suffixes ↔ s ∈ scannedSuffixes i := by
  have h := GroupInv.bysuffix i
  refine ⟨?_, suffixes_nodup i, fun s => ⟨fun hs => ?_, fun hs => ?_⟩⟩
  · rw [length_InstructionFunctions]
    exact dedup_length_map_of_injOn _ _ hinj
  · obtain ⟨fn, hfn, rfl⟩ := List.mem_map.1 hs
    obtain ⟨e, he, rfl⟩ := List.mem_map.1 ((mem_InstructionFunctions i _).1 hfn)
    have h3 := (h.entry e he).2.2.1
    rw [scanPairs_snd] at h3
    exact h3
  · have hk : Join s "." ∈ (bysuffix i).map Prod.fst :=
      (mem_keys_iff i _).2 (List.mem_map.2 ⟨s, hs, rfl⟩)
    obtain ⟨e, he, hek⟩ := List.mem_map.1 hk
    obtain ⟨_, h2, h3, _⟩ := h.entry e he
    rw [scanPairs_snd] at h3
    refine List.mem_map.2 ⟨e.2, (mem_InstructionFunctions i _).2 (List.mem_map.2 ⟨e, he, rfl⟩), ?_⟩
    exact hinj _ h3 _ hs (h2.trans hek)

/-- On `exCollide`, a list with a token holding `.` that `SupportedSuffixes` does not
yield, two distinct suffix combinations share a key and one function is returned. -/
theorem shared_key_count_example :
    (scannedSuffixes exCollide).dedup = [["A", "B"], ["A.B"]]
    ∧ (InstructionFunctions exCollide).length = 1
    ∧ (InstructionFunctions exCollide).length ≠ (scannedSuffixes exCollide).dedup.length := by
  decide

/-! ## Order of the returned functions -/

theorem index_lt_of_name_lt (l : List Function) (hl : l.Sorted (fun a b => a.Name ≤ b.Name))
    (fa fb : Function) (ha : fa ∈ l) (hb : fb ∈ l) (hlt : fa.Name < fb.Name) :
    l.indexOf fa < l.indexOf fb := by
  by_contra hcon
  have hia : l.indexOf fa < l.length := List.indexOf_lt_length.2 ha
  have hib : l.indexOf fb < l.length := List.indexOf_lt_length.2 hb
  have hga : l.get ⟨l.indexOf fa, hia⟩ = fa := List.indexOf_get hia
  have hgb : l.get ⟨l.indexOf fb, hib⟩ = fb := List.indexOf_get hib
  rcases Nat.lt_or_ge (l.indexOf fb) (l.indexOf fa) with h | h
  · have hle := List.pairwise_iff_get.1 hl ⟨l.indexOf fb, hib⟩ ⟨l.indexOf fa, hia⟩ h
    rw [hga, hgb] at hle
    exact absurd hlt (not_lt.2 hle)
  · have heq : l.indexOf fa = l.indexOf fb := by omega
    have : fa = fb := by
      rw [← hga, ← hgb]
      congr 1
      exact Fin.ext heq
    rw [this] at hlt
    exact lt_irrefl _ hlt

/-- C9, as amended: the functions are returned in ascending order of `Name`, whatever the
order in which their suffix combinations were first met: of two returned functions the one
with the smaller name stands first. -/
theorem functions_in_name_order (i : Instruction) (fa fb : Function)
    (ha : fa ∈ InstructionFunctions i) (hb : fb ∈ InstructionFunctions i)
    (hlt : fa.Name < fb.Name) :
    (InstructionFunctions i).indexOf fa < (InstructionFunctions i).indexOf fb :=
  index_lt_of_name_lt _ (SortFunctions_sorted _) fa fb ha hb hlt

theorem functions_in_name_order_witness :
    (⟨exOrder, ["A"], exOrder.Forms⟩ : Function).Name < (⟨exOrder, ["Z"], exOrder.Forms⟩ : Function).Name
    ∧ (InstructionFunctions exOrder).indexOf ⟨exOrder, ["A"], exOrder.Forms⟩
        < (InstructionFunctions exOrder).indexOf ⟨exOrder, ["Z"], exOrder.Forms⟩ :=
  ⟨by rw [String.lt_iff_toList_lt]; decide,
   functions_in_name_order exOrder _ _ (by decide) (by decide)
     (by rw [String.lt_iff_toList_lt]; decide)⟩

/-- C9 fails as stated: in `exOrder` the combination `["Z"]` is met before `["A"]` in the
scan of the forms, and the function for `["Z"]` is returned after the function for `["A"]`. -/
theorem first_seen_order_counterexample :
    scannedSuffixes exOrder = [["Z"], ["A"]]
    ∧ (InstructionFunctions exOrder).map Function.Suffixes = [["A"], ["Z"]]
    ∧ ∃ fa ∈ InstructionFunctions exOrder, ∃ fb ∈ InstructionFunctions exOrder,
        (scannedSuffixes exOrder).indexOf fa.Suffixes < (scannedSuffixes exOrder).indexOf fb.Suffixes
        ∧ ¬ ((InstructionFunctions exOrder).indexOf fa < (InstructionFunctions exOrder).indexOf fb) := by
  decide

/-! ## Decimal rendering -/

theorem digitChar_facts :
    ∀ m, m < 10 → (Nat.digitChar m).toNat - 48 = m ∧ Nat.digitChar m ∉ lowercase := by
  decide

theorem digitsValue_append_singleton (l : List Char) (c : Char) :
    digitsValue (l ++ [c]) = 10 * digitsValue l + (c.toNat - 48) := by
  simp [digitsValue, List.foldl_append]

theorem toDigitsCore_spec (fuel : Nat) :
    ∀ (n : Nat) (ds : List Char), n < fuel →
      ∃ l, Nat.toDigitsCore 10 fuel n ds = l ++ ds ∧ l ≠ []
        ∧ (∀ c ∈ l, c ∉ lowercase) ∧ digitsValue l = n := by
  induction fuel with
  | zero => intro n ds h; omega
  | succ fuel ih =>
    intro n ds h
    obtain ⟨hv, hl⟩ := digitChar_facts (n % 10) (Nat.mod_lt _ (by decide))
    by_cases h0 : n / 10 = 0
    · refine ⟨[Nat.digitChar (n % 10)], by simp [Nat.toDigitsCore, h0], by simp, ?_, ?_⟩
      · intro c hc
        rw [List.mem_singleton] at hc
        rw [hc]; exact hl
      · have hn : n % 10 = n := by omega
        simp only [digitsValue, List.foldl_cons, List.foldl_nil, hv]
        omega
    · have hlt : n / 10 < fuel := by omega
      obtain ⟨l, hl1, _, hl3, hl4⟩ := ih (n / 10) (Nat.digitChar (n % 10) :: ds) hlt
      refine ⟨l ++ [Nat.digitChar (n % 10)], ?_, by simp, ?_, ?_⟩
      · simp [Nat.toDigitsCore, h0, hl1]
      · intro c hc
        rcases List.mem_append.1 hc with hc | hc
        · exact hl3 c hc
        · rw [List.mem_singleton] at hc
          rw [hc]; exact hl
      · rw [digitsValue_append_singleton, hl4, hv]
        omega

theorem repr_spec (n : Nat) :
    (Nat.repr n).data ≠ [] ∧ (∀ c ∈ (Nat.repr n).data, c ∉ lowercase)
      ∧ digitsValue (Nat.repr n).data = n := by
  obtain ⟨l, h1, h2, h3, h4⟩ := toDigitsCore_spec (n + 1) n [] (Nat.lt_succ_self n)
  have hd : (Nat.repr n).data = l := by
    simp [Nat.repr, Nat.toDigits, h1, List.asString]
  rw [hd]
  exact ⟨h2, h3, h4⟩

theorem repr_injective (a b : Nat) (h : Nat.repr a = Nat.repr b) : a = b := by
  rw [← (repr_spec a).2.2, ← (repr_spec b).2.2, h]

/-! ## The candidate name of a position -/

theorem utf8Lead_ofNat : ∀ b, b < 123 → 97 ≤ b → utf8Lead (Char.ofNat b) = b := by
  decide

theorem utf8Lead_lower_iff (c : Char) (b : Nat) (h1 : 97 ≤ b) (h2 : b ≤ 122) :
    utf8Lead c = b ↔ c = Char.ofNat b := by
  constructor
  · intro h
    have hc : c.toNat = b := by
      unfold utf8Lead at h
      split_ifs at h <;> omega
    rw [← hc, Char.ofNat_toNat]
  · intro h
    rw [h]
    exact utf8Lead_ofNat b (by omega) h1

theorem collectStep_eq (j : Nat) (s : List Nat) (form : Form) (c : Char)
    (h : firstChar form j = some c) :
    collectStep j s form
      = some (if 97 ≤ utf8Lead c ∧ utf8Lead c ≤ 122 then setKey s (utf8Lead c) else s) := by
  unfold firstChar at h
  unfold collectStep
  cases hget : form.Operands[j]? with
  | none => rw [hget] at h; simp at h
  | some op =>
    rw [hget] at h
    simp only [Option.some_bind] at h
    cases hdata : op.Typ.data with
    | nil => simp [hdata] at h
    | cons d rest =>
      rw [hdata] at h
      simp only [List.head?_cons, Option.some.injEq] at h
      subst h
      simp only [byte0, hdata]
      split_ifs <;> rfl

theorem setKey_nodup (s : List Nat) (b : Nat) (h : s.Nodup) : (setKey s b).Nodup := by
  unfold setKey
  split_ifs with hb
  · exact h
  · rw [List.nodup_append]
    exact ⟨h, by simp, by
      intro a ha hb2
      rw [List.mem_singleton] at hb2
      exact hb (hb2 ▸ ha)⟩

theorem mem_setKey (s : List Nat) (b a : Nat) : a ∈ setKey s b ↔ a ∈ s ∨ a = b := by
  unfold setKey
  split_ifs with hb
  · constructor
    · exact Or.inl
    · rintro (h | h)
      · exact h
      · rw [h]; exact hb
  · simp

theorem collect_spec (j : Nat) (forms : Forms)
    (hok : ∀ form ∈ forms, ∃ c, firstChar form j = some c) :
    ∀ acc : List Nat, acc.Nodup →
      ∃ s, forms.foldlM (collectStep j) acc = some s ∧ s.Nodup
        ∧ ∀ b, b ∈ s ↔ (b ∈ acc ∨ (97 ≤ b ∧ b ≤ 122
            ∧ ∃ form ∈ forms, firstChar form j = some (Char.ofNat b))) := by
  induction forms with
  | nil =>
    intro acc hacc
    exact ⟨acc, rfl, hacc, by simp⟩
  | cons form rest ih =>
    intro acc hacc
    obtain ⟨c, hc⟩ := hok form (List.mem_cons_self _ _)
    have hrest : ∀ g ∈ rest, ∃ c, firstChar g j = some c :=
      fun g hg => hok g (List.mem_cons_of_mem _ hg)
    rw [List.foldlM_cons, collectStep_eq j acc form c hc]
    by_cases hlow : 97 ≤ utf8Lead c ∧ utf8Lead c ≤ 122
    · rw [if_pos hlow]
      obtain ⟨s, hs1, hs2, hs3⟩ := ih hrest (setKey acc (utf8Lead c)) (setKey_nodup _ _ hacc)
      refine ⟨s, hs1, hs2, fun b => ?_⟩
      rw [hs3, mem_setKey]
      constructor
      · rintro ((h | h) | ⟨h1, h2, g, hg, hgc⟩)
        · exact Or.inl h
        · refine Or.inr ⟨h ▸ hlow.1, h ▸ hlow.2, form, List.mem_cons_self _ _, ?_⟩
          rw [hc, h, ← (utf8Lead_lower_iff c _ hlow.1 hlow.2).1 rfl]
        · exact Or.inr ⟨h1, h2, g, List.mem_cons_of_mem _ hg, hgc⟩
      · rintro (h | ⟨h1, h2, g, hg, hgc⟩)
        · exact Or.inl (Or.inl h)
        · rcases List.mem_cons.1 hg with hg | hg
          · subst hg
            rw [hc, Option.some.injEq] at hgc
            exact Or.inl (Or.inr ((utf8Lead_lower_iff c b h1 h2).2 hgc).symm)
          · exact Or.inr ⟨h1, h2, g, hg, hgc⟩
    · rw [if_neg hlow]
      obtain ⟨s, hs1, hs2, hs3⟩ := ih hrest acc hacc
      refine ⟨s, hs1, hs2, fun b => ?_⟩
      rw [hs3]
      constructor
      · rintro (h | ⟨h1, h2, g, hg, hgc⟩)
        · exact Or.inl h
        · exact Or.inr ⟨h1, h2, g, List.mem_cons_of_mem _ hg, hgc⟩
      · rintro (h | ⟨h1, h2, g, hg, hgc⟩)
        · exact Or.inl h
        · rcases List.mem_cons.1 hg with hg | hg
          · subst hg
            rw [hc, Option.some.injEq] at hgc
            have := (utf8Lead_lower_iff c b h1 h2).2 hgc
            exact absurd ⟨this ▸ h1, this ▸ h2⟩ hlow
          · exact Or.inr ⟨h1, h2, g, hg, hgc⟩

theorem lowercase_eq_range : lowercase = (List.range' 97 26).map Char.ofNat := by
  decide

theorem sortedName_eq_candidate (forms : Forms) (j : Nat) (s : List Nat) (hnodup : s.Nodup)
    (hmem : ∀ b, b ∈ s ↔ (97 ≤ b ∧ b ≤ 122
      ∧ ∃ form ∈ forms, firstChar form j = some (Char.ofNat b))) :
    sortedName s = candidate forms j := by
  have hsort : List.insertionSort (· ≤ ·) s
      = (List.range' 97 26).filter (fun b => decide (b ∈ s)) := by
    apply List.eq_of_perm_of_sorted (r := (· ≤ ·))
    · rw [List.perm_ext_iff_of_nodup ((List.perm_insertionSort _ s).nodup_iff.2 hnodup)
        ((List.nodup_range' 97 26).filter _)]
      intro b
      rw [(List.perm_insertionSort _ s).mem_iff, List.mem_filter, List.mem_range'_1]
      constructor
      · intro hb
        have := (hmem b).1 hb
        exact ⟨⟨this.1, by omega⟩, by simpa using hb⟩
      · intro hb
        simpa using hb.2
    · exact List.sorted_insertionSort _ s
    · exact List.Sorted.filter _ (by decide)
  unfold sortedName candidate
  rw [hsort, lowercase_eq_range, List.filter_map]
  congr 2
  apply List.filter_congr
  intro b hb
  rw [List.mem_range'_1] at hb
  have hiff := hmem b
  by_cases hbs : b ∈ s
  · obtain ⟨_, _, g, hg, hgc⟩ := hiff.1 hbs
    simp only [hbs, decide_True, Function.comp_apply]
    symm
    rw [List.any_eq_true]
    exact ⟨g, hg, by simp [hgc]⟩
  · simp only [hbs, decide_False, Function.comp_apply]
    symm
    rw [Bool.eq_false_iff]
    intro hany
    rw [List.any_eq_true] at hany
    obtain ⟨g, hg, hgc⟩ := hany
    apply hbs
    rw [hiff]
    exact ⟨hb.1, by omega, g, hg, by simpa using hgc⟩

theorem collect_eq_candidate (forms : Forms) (j : Nat)
    (hok : ∀ form ∈ forms, ∃ c, firstChar form j = some c) :
    ∃ s, collect j forms = some s ∧ sortedName s = candidate forms j := by
  obtain ⟨s, h1, h2, h3⟩ := collect_spec j forms hok [] List.nodup_nil
  refine ⟨s, h1, sortedName_eq_candidate forms j s h2 (fun b => ?_)⟩
  rw [h3]
  simp

/-! ## The loop over the positions -/

theorem nameStep_spec (forms : Forms) (j : Nat) (st : SigState)
    (hok : ∀ form ∈ forms, ∃ c, firstChar form j = some c)
    (hcount : st.count (candidate forms j) = ((earlier forms j : Nat) : Int)) :
    ∃ st1, nameStep forms st j = some st1
      ∧ st1.ops = st.ops.set j (specName forms j)
      ∧ ∀ c, st1.count c
          = if c = candidate forms j then st.count c + 1 else st.count c := by
  obtain ⟨s, hs1, hs2⟩ := collect_eq_candidate forms j hok
  refine ⟨_, by simp only [nameStep, hs1, hs2]; rfl, ?_, ?_⟩
  · simp only [hcount, Itoa_natCast, specName]
    by_cases hk : 1 ≤ earlier forms j
    · have : ((earlier forms j : Nat) : Int) > 0 := by omega
      simp [hk, this]
    · have : ¬ (((earlier forms j : Nat) : Int) > 0) := by omega
      simp [hk, this]
  · intro c
    by_cases hc : c = candidate forms j
    · subst hc; simp
    · simp [Function.update, hc]

theorem loop_spec (forms : Forms) (n : Nat)
    (hok : ∀ j, j < n → ∀ form ∈ forms, ∃ c, firstChar form j = some c) :
    ∀ j, j ≤ n →
      ∃ st, (List.range j).foldlM (nameStep forms)
          { ops := List.replicate n "", count := fun _ => 0 } = some st
        ∧ st.ops = (List.range j).map (specName forms) ++ List.replicate (n - j) ""
        ∧ ∀ c, st.count c
            = (((List.range j).filter (fun i => candidate forms i = c)).length : Int) := by
  intro j
  induction j with
  | zero => intro _; exact ⟨_, rfl, by simp, by simp⟩
  | succ j ih =>
    intro hj
    obtain ⟨st, h1, h2, h3⟩ := ih (by omega)
    obtain ⟨st1, g1, g2, g3⟩ := nameStep_spec forms j st (hok j (by omega)) (h3 _)
    refine ⟨st1, ?_, ?_, ?_⟩
    · rw [List.range_succ, List.foldlM_append, h1]
      simp [g1]
    · have hrep : List.replicate (n - j) "" = "" :: List.replicate (n - (j + 1)) "" := by
        rw [← List.replicate_succ]; congr 1; omega
      rw [g2, h2, hrep, List.range_succ, List.map_append, List.set_append]
      simp
    · intro c
      rw [g3, h3, List.range_succ, List.filter_append, List.length_append]
      by_cases hc : c = candidate forms j
      · subst hc; simp
      · have hc2 : ¬ (candidate forms j = c) := fun h => hc h.symm
        simp [hc, hc2]

theorem firstChar_of_path (q : ArityQueries) (forms : Forms) (n : Nat)
    (h : FixedArityPath q forms n) :
    ∀ j, j < n → ∀ form ∈ forms, ∃ c, firstChar form j = some c := by
  intro j hj form hform
  obtain ⟨hlen, htag⟩ := h.2.2.2 form hform
  have hjl : j < form.Operands.length := by omega
  have hne := htag (form.Operands[j]) (List.getElem_mem _)
  unfold firstChar
  rw [List.getElem?_eq_getElem hjl]
  cases hd : (form.Operands[j]).Typ.data with
  | nil =>
    exfalso
    apply hne
    exact String.ext hd
  | cons c rest => exact ⟨c, by simp [hd]⟩

theorem signature_eq_specNames (q : ArityQueries) (f : Function) (n : Nat)
    (h : FixedArityPath q f.Forms n) :
    f.Signature q = some (Signature.argslist ((List.range n).map (specName f.Forms))) := by
  obtain ⟨st, h1, h2, _⟩ := loop_spec f.Forms n (firstChar_of_path q f.Forms n h) n le_rfl
  have hneg : ¬ ((n : Int) < 0) := by omega
  simp only [Function.Signature, h.1, h.2.1, h.2.2.1, hneg, Int.toNat_ofNat, h1]
  simp [h2]

/-! ## Uniqueness of the names -/

theorem candidate_lower (forms : Forms) (j : Nat) :
    ∀ c ∈ (candidate forms j).data, c ∈ lowercase := by
  intro c hc
  unfold candidate at hc
  exact (List.mem_filter.1 hc).1

theorem counterText_not_lower (k : Nat) : ∀ c ∈ counterText k, c ∉ lowercase := by
  intro c hc
  unfold counterText at hc
  split_ifs at hc
  · exact (repr_spec k).2.1 c hc
  · simp at hc

theorem counterText_injective (a b : Nat) (h : counterText a = counterText b) : a = b := by
  unfold counterText at h
  split_ifs at h with ha hb hb
  · exact repr_injective a b (String.ext h)
  · exact absurd h (repr_spec a).1
  · exact absurd h.symm (repr_spec b).1
  · omega

theorem specName_data (forms : Forms) (j : Nat) :
    (specName forms j).data = (candidate forms j).data ++ counterText (earlier forms j) := by
  unfold specName counterText
  split_ifs <;> simp

theorem split_unique (c1 : List Char) :
    ∀ (c2 d1 d2 : List Char), c1 ++ d1 = c2 ++ d2 →
      (∀ x ∈ c1, x ∈ lowercase) → (∀ x ∈ c2, x ∈ lowercase) →
      (∀ x ∈ d1, x ∉ lowercase) → (∀ x ∈ d2, x ∉ lowercase) → c1 = c2 ∧ d1 = d2 := by
  induction c1 with
  | nil =>
    intro c2 d1 d2 h _ hc2 hd1 _
    cases c2 with
    | nil => exact ⟨rfl, by simpa using h⟩
    | cons y c2 =>
      exfalso
      rw [List.nil_append] at h
      exact hd1 y (by rw [h]; simp) (hc2 y (List.mem_cons_self _ _))
  | cons x c1 ih =>
    intro c2 d1 d2 h hc1 hc2 hd1 hd2
    cases c2 with
    | nil =>
      exfalso
      rw [List.nil_append] at h
      exact hd2 x (by rw [← h]; simp) (hc1 x (List.mem_cons_self _ _))
    | cons y c2 =>
      rw [List.cons_append, List.cons_append, List.cons.injEq] at h
      obtain ⟨h1, h2⟩ := ih c2 d1 d2 h.2 (fun z hz => hc1 z (List.mem_cons_of_mem _ hz))
        (fun z hz => hc2 z (List.mem_cons_of_mem _ hz)) hd1 hd2
      exact ⟨by rw [h.1, h1], h2⟩

theorem earlier_lt (forms : Forms) (i j : Nat) (hij : i < j)
    (hc : candidate forms i = candidate forms j) : earlier forms i < earlier forms j := by
  unfold earlier
  have hsub : List.Sublist (List.range (i + 1)) (List.range j) :=
    List.range_sublist.2 (by omega)
  have hle := (hsub.filter (fun t => decide (candidate forms t = candidate forms j))).length_le
  rw [List.range_succ, List.filter_append, List.length_append] at hle
  rw [hc]
  simp only [List.filter_cons, hc, decide_True, if_true, List.filter_nil, List.length_singleton]
    at hle
  omega

theorem specName_injective (forms : Forms) (i j : Nat)
    (h : specName forms i = specName forms j) : i = j := by
  have hd : (candidate forms i).data ++ counterText (earlier forms i)
      = (candidate forms j).data ++ counterText (earlier forms j) := by
    rw [← specName_data, ← specName_data, h]
  obtain ⟨h1, h2⟩ := split_unique _ _ _ _ hd (candidate_lower forms i) (candidate_lower forms j)
    (counterText_not_lower _) (counterText_not_lower _)
  have hc : candidate forms i = candidate forms j := String.ext h1
  have hk := counterText_injective _ _ h2
  rcases Nat.lt_trichotomy i j with hlt | heq | hgt
  · have := earlier_lt forms i j hlt hc
    omega
  · exact heq
  · have := earlier_lt forms j i hgt hc.symm
    omega

theorem specNames_nodup (forms : Forms) (n : Nat) :
    ((List.range n).map (specName forms)).Nodup :=
  List.Nodup.map_on (fun i _ j _ h => specName_injective forms i j h) (List.nodup_range n)

/-- C1: on the fixed-arity path of `Signature()` with arity `n`, the result is a list of `n`
parameter names without repetition: two different positions never carry the same name. -/
theorem signature_names_distinct (q : ArityQueries) (f : Function) (n : Nat)
    (h : FixedArityPath q f.Forms n) :
    ∃ ops, f.Signature q = some (Signature.argslist ops) ∧ ops.length = n ∧ ops.Nodup
      ∧ ∀ a b : Fin ops.length, a ≠ b → ops.get a ≠ ops.get b := by
  refine ⟨_, signature_eq_specNames q f n h, by simp, specNames_nodup f.Forms n, ?_⟩
  intro a b hab heq
  exact hab ((specNames_nodup f.Forms n).get_inj_iff.1 heq)

theorem signature_names_distinct_witness :
    FixedArityPath exQueries exDigits.Forms 3
    ∧ exDigits.Signature exQueries = some (Signature.argslist ["", "1", "2"])
    ∧ ∃ ops, exDigits.Signature exQueries = some (Signature.argslist ops) ∧ ops.length = 3
      ∧ ops.Nodup ∧ ∀ a b : Fin ops.length, a ≠ b → ops.get a ≠ ops.get b :=
  ⟨⟨rfl, rfl, rfl, by decide⟩, by decide,
    signature_names_distinct exQueries exDigits 3 ⟨rfl, rfl, rfl, by decide⟩⟩

/-! ## The naming rule -/

/-- C3: on the fixed-arity path of `Signature()` the name returned at every position `j` is
the candidate of the position (the lowercase first letters of the type tags at `j`, each
once, ascending), followed by the decimal number `k` of earlier positions with the same
candidate when `k ≥ 1`. -/
theorem signature_matches_rule (q : ArityQueries) (f : Function) (n : Nat)
    (h : FixedArityPath q f.Forms n) :
    ∃ ops, f.Signature q = some (Signature.argslist ops) ∧ ops.length = n
      ∧ ∀ j, j < n → ops[j]? = some (specName f.Forms j) := by
  refine ⟨_, signature_eq_specNames q f n h, by simp, ?_⟩
  intro j hj
  rw [List.getElem?_map, List.getElem?_range hj]
  rfl

theorem signature_matches_rule_witness :
    FixedArityPath exQueries exRR.Forms 2
    ∧ exRR.Signature exQueries = some (Signature.argslist ["r", "r1"])
    ∧ ∃ ops, exRR.Signature exQueries = some (Signature.argslist ops) ∧ ops.length = 2
      ∧ ∀ j, j < 2 → ops[j]? = some (specName exRR.Forms j) :=
  ⟨⟨rfl, rfl, rfl, by decide⟩, by decide,
    signature_matches_rule exQueries exRR 2 ⟨rfl, rfl, rfl, by decide⟩⟩

/-! ## Independence of the order of the forms -/

theorem candidate_perm (fs gs : Forms) (hperm : fs.Perm gs) (j : Nat) :
    candidate fs j = candidate gs j := by
  unfold candidate
  congr 1
  apply List.filter_congr
  intro c _
  rw [Bool.eq_iff_iff, List.any_eq_true, List.any_eq_true]
  constructor
  · rintro ⟨g, hg, hgc⟩; exact ⟨g, hperm.mem_iff.1 hg, hgc⟩
  · rintro ⟨g, hg, hgc⟩; exact ⟨g, hperm.mem_iff.2 hg, hgc⟩

theorem specName_perm (fs gs : Forms) (hperm : fs.Perm gs) (j : Nat) :
    specName fs j = specName gs j := by
  have hc : candidate fs = candidate gs := funext (candidate_perm fs gs hperm)
  unfold specName earlier
  rw [hc]

/-- C2: two functions whose form lists are permutations of each other, both on the
fixed-arity path with the same arity `n`, have the same `Signature()`. -/
theorem signature_perm (q : ArityQueries) (f g : Function) (n : Nat)
    (hperm : f.Forms.Perm g.Forms)
    (hf : FixedArityPath q f.Forms n) (hg : FixedArityPath q g.Forms n) :
    f.Signature q = g.Signature q
    ∧ ∃ ops, f.Signature q = some (Signature.argslist ops) ∧ ops.length = n := by
  rw [signature_eq_specNames q f n hf, signature_eq_specNames q g n hg]
  refine ⟨?_, _, rfl, by simp⟩
  congr 2
  apply List.map_congr_left
  intro j _
  exact specName_perm _ _ hperm j

theorem signature_perm_witness :
    exRR.Signature exQueries
        = Function.Signature exQueries { exRR with Forms := exRR.Forms.reverse }
    ∧ ∃ ops, exRR.Signature exQueries = some (Signature.argslist ops) ∧ ops.length = 2 :=
  signature_perm exQueries exRR { exRR with Forms := exRR.Forms.reverse } 2
    (List.reverse_perm _).symm ⟨rfl, rfl, rfl, by decide⟩ ⟨rfl, rfl, rfl, by decide⟩

/-! ## The order of the result does not depend on map iteration or on the sort algorithm -/

theorem map_injOn_eq {α β : Type} (g : α → β) (l1 : List α) :
    ∀ l2 : List α, l1.map g = l2.map g →
      (∀ x ∈ l1, ∀ y ∈ l2, g x = g y → x = y) → l1 = l2 := by
  induction l1 with
  | nil => intro l2 h _; cases l2 with
    | nil => rfl
    | cons y l2 => simp at h
  | cons x l1 ih =>
    intro l2 h hinj
    cases l2 with
    | nil => simp at h
    | cons y l2 =>
      rw [List.map_cons, List.map_cons, List.cons.injEq] at h
      have hxy := hinj x (List.mem_cons_self _ _) y (List.mem_cons_self _ _) h.1
      have hrest := ih l2 h.2 (fun a ha b hb hab =>
        hinj a (List.mem_cons_of_mem _ ha) b (List.mem_cons_of_mem _ hb) hab)
      rw [hxy, hrest]

/-- Whatever order the range over the map yields and whatever (unstable) algorithm sorts:
when the names are pairwise distinct, every permutation of the functions that is ascending
by name is the list computed by `SortFunctions`. -/
theorem sorted_perm_unique (l out : List Function) (hnames : (l.map Function.Name).Nodup)
    (hperm : out.Perm l) (hsorted : out.Sorted (fun a b => a.Name ≤ b.Name)) :
    out = SortFunctions l := by
  have hp : out.Perm (SortFunctions l) := hperm.trans (SortFunctions_perm l).symm
  have hn : out.map Function.Name = (SortFunctions l).map Function.Name := by
    apply List.eq_of_perm_of_sorted (r := (· ≤ ·)) (hp.map _)
    · exact List.pairwise_map.2 hsorted
    · exact List.pairwise_map.2 (SortFunctions_sorted l)
  apply map_injOn_eq Function.Name out _ hn
  intro x hx y hy hxy
  exact List.inj_on_of_nodup_map hnames (hperm.mem_iff.1 hx)
    ((SortFunctions_perm l).mem_iff.1 hy) hxy

/-- In `exOrder` the order of the result is forced: every ascending permutation of the two
functions of the map returns the function for `["A"]` before the function for `["Z"]`. -/
theorem exOrder_forced (out : List Function)
    (hperm : out.Perm ((bysuffix exOrder).map Prod.snd))
    (hsorted : out.Sorted (fun a b => a.Name ≤ b.Name)) :
    out.map Function.Suffixes = [["A"], ["Z"]] := by
  rw [sorted_perm_unique _ out (by decide) hperm hsorted]
  decide

/-! ## Keys of suffix combinations -/

theorem Join_cons_data (a : String) (rest : List String) :
    (Join (a :: rest) ".").data
      = a.data ++ joinTail (rest.map String.data) (Join rest ".").data := by
  cases rest with
  | nil => simp [Join, joinTail]
  | cons b r => simp [Join, joinTail, String.data_append]

theorem split_at_dot (a : List Char) :
    ∀ (b t1 t2 : List Char), a ++ t1 = b ++ t2 → '.' ∉ a → '.' ∉ b →
      (t1 = [] ∨ ∃ r, t1 = '.' :: r) → (t2 = [] ∨ ∃ r, t2 = '.' :: r) → a = b ∧ t1 = t2 := by
  induction a with
  | nil =>
    intro b t1 t2 h _ hb ht1 _
    cases b with
    | nil => exact ⟨rfl, by simpa using h⟩
    | cons y b =>
      exfalso
      rw [List.nil_append, List.cons_append] at h
      rcases ht1 with ht1 | ⟨r, ht1⟩
      · rw [ht1] at h; simp at h
      · rw [ht1, List.cons.injEq] at h
        exact hb (by rw [← h.1]; exact List.mem_cons_self _ _)
  | cons x a ih =>
    intro b t1 t2 h ha hb ht1 ht2
    cases b with
    | nil =>
      exfalso
      rw [List.nil_append, List.cons_append] at h
      rcases ht2 with ht2 | ⟨r, ht2⟩
      · rw [ht2] at h; simp at h
      · rw [ht2, List.cons.injEq] at h
        exact ha (by rw [h.1]; exact List.mem_cons_self _ _)
    | cons y b =>
      rw [List.cons_append, List.cons_append, List.cons.injEq] at h
      obtain ⟨h1, h2⟩ := ih b t1 t2 h.2 (fun hm => ha (List.mem_cons_of_mem _ hm))
        (fun hm => hb (List.mem_cons_of_mem _ hm)) ht1 ht2
      exact ⟨by rw [h.1, h1], h2⟩

theorem joinTail_cases (rest : List (List Char)) (joined : List Char) :
    joinTail rest joined = [] ∨ ∃ r, joinTail rest joined = '.' :: r := by
  unfold joinTail
  split_ifs
  · exact Or.inl rfl
  · exact Or.inr ⟨_, rfl⟩

/-- Suffix combinations made of non-empty tokens without `.` are told apart by their keys. -/
theorem Join_injective_of_plain (l1 : List String) :
    ∀ l2 : List String, (∀ t ∈ l1, PlainToken t) → (∀ t ∈ l2, PlainToken t) →
      Join l1 "." = Join l2 "." → l1 = l2 := by
  induction l1 with
  | nil =>
    intro l2 _ h2 h
    cases l2 with
    | nil => rfl
    | cons b r2 =>
      exfalso
      have hd := congrArg String.data h
      rw [Join_cons_data] at hd
      have hb := (h2 b (List.mem_cons_self _ _)).1
      have : b.data = [] := by
        have hnil : ([] : List Char) = b.data ++ _ := hd
        exact (List.append_eq_nil.1 hnil.symm).1
      exact hb (String.ext this)
  | cons a r1 ih =>
    intro l2 h1 h2 h
    cases l2 with
    | nil =>
      exfalso
      have hd := congrArg String.data h
      rw [Join_cons_data] at hd
      have ha := (h1 a (List.mem_cons_self _ _)).1
      have : a.data = [] := by
        have hnil : a.data ++ _ = ([] : List Char) := hd
        exact (List.append_eq_nil.1 hnil).1
      exact ha (String.ext this)
    | cons b r2 =>
      have hd := congrArg String.data h
      rw [Join_cons_data, Join_cons_data] at hd
      obtain ⟨hab, htail⟩ := split_at_dot _ _ _ _ hd (h1 a (List.mem_cons_self _ _)).2
        (h2 b (List.mem_cons_self _ _)).2 (joinTail_cases _ _) (joinTail_cases _ _)
      have hrest : r1 = r2 := by
        unfold joinTail at htail
        by_cases hr1 : r1 = []
        · by_cases hr2 : r2 = []
          · rw [hr1, hr2]
          · simp [hr1, hr2] at htail
        · by_cases hr2 : r2 = []
          · simp [hr1, hr2] at htail
          · simp only [List.map_eq_nil_iff, hr1, hr2, if_false, List.cons.injEq, true_and]
              at htail
            exact ih r2 (fun t ht => h1 t (List.mem_cons_of_mem _ ht))
              (fun t ht => h2 t (List.mem_cons_of_mem _ ht)) (String.ext htail)
      rw [String.ext hab, hrest]

/-! ## Symbol text -/

/-- C11, as amended: the text of a symbol is its name with `<>` appended when the symbol is
static; it is empty exactly when the symbol is unnamed and not static (an unnamed static
symbol has the text `<>`). -/
theorem symbol_text (s : Symbol) :
    s.String = s.Name ++ (if s.Static then "<>" else "")
    ∧ (s.String = "" ↔ (s.Name = "" ∧ s.Static = false)) := by
  obtain ⟨name, static⟩ := s
  cases static
  · simp [Symbol.String]
  · refine ⟨by simp [Symbol.String], ?_⟩
    simp only [Symbol.String, if_true]
    constructor
    · intro h
      have hlen := congrArg String.length h
      simp [String.length_append] at hlen
      have : "<>".length = 2 := by decide
      omega
    · intro h
      exact absurd h.2 (by simp)

/-- C11 fails as stated: the unnamed static symbol has the text `<>`, not the empty text. -/
theorem symbol_text_counterexample :
    Symbol.String ⟨"", true⟩ = "<>" ∧ Symbol.String ⟨"", true⟩ ≠ "" := by
  decide

/-! ## Immediates and relative offsets -/

theorem hexDigit_facts :
    ∀ m, m < 16 → hexDigitValue (Nat.digitChar m) = m ∧ Nat.digitChar m ∈ hexChars
      ∧ (Nat.digitChar m = '0' ↔ m = 0) := by
  decide

theorem hexValue_append_singleton (l : List Char) (c : Char) :
    hexValue (l ++ [c]) = 16 * hexValue l + hexDigitValue c := by
  simp [hexValue, List.foldl_append]

theorem toDigitsCore_hex_spec (fuel : Nat) :
    ∀ (n : Nat) (ds : List Char), n < fuel →
      ∃ l, Nat.toDigitsCore 16 fuel n ds = l ++ ds ∧ l ≠ []
        ∧ (∀ c ∈ l, c ∈ hexChars) ∧ hexValue l = n
        ∧ (if n = 0 then l = ['0'] else l.head? ≠ some '0') := by
  induction fuel with
  | zero => intro n ds h; omega
  | succ fuel ih =>
    intro n ds h
    obtain ⟨hv, hl, hz⟩ := hexDigit_facts (n % 16) (Nat.mod_lt _ (by decide))
    by_cases h0 : n / 16 = 0
    · have hn : n % 16 = n := by omega
      refine ⟨[Nat.digitChar (n % 16)], by simp [Nat.toDigitsCore, h0], by simp, ?_, ?_, ?_⟩
      · intro c hc
        rw [List.mem_singleton] at hc
        rw [hc]; exact hl
      · simp only [hexValue, List.foldl_cons, List.foldl_nil, hv]
        omega
      · by_cases hn0 : n = 0
        · subst hn0; simp; rfl
        · rw [if_neg hn0]
          simp only [List.head?_cons, ne_eq, Option.some.injEq]
          rw [hz]; omega
    · have hlt : n / 16 < fuel := by omega
      obtain ⟨l, hl1, hl2, hl3, hl4, hl5⟩ := ih (n / 16) (Nat.digitChar (n % 16) :: ds) hlt
      refine ⟨l ++ [Nat.digitChar (n % 16)], ?_, by simp, ?_, ?_, ?_⟩
      · simp [Nat.toDigitsCore, h0, hl1]
      · intro c hc
        rcases List.mem_append.1 hc with hc | hc
        · exact hl3 c hc
        · rw [List.mem_singleton] at hc
          rw [hc]; exact hl
      · rw [hexValue_append_singleton, hl4, hv]
        omega
      · have hn0 : n ≠ 0 := by omega
        rw [if_neg hn0]
        rw [if_neg h0] at hl5
        cases l with
        | nil => exact absurd rfl hl2
        | cons c rest => simpa using hl5

/-- C12: `Imm(v).Asm()` is `$0x` followed by the lowercase hexadecimal digits of `v`: a
non-empty list of characters among `0-9a-f` whose value in base 16 is `v`, the single digit
`0` for `v = 0` and without a leading `0` otherwise; `Imm(255).Asm()` is `$0xff`. -/
theorem imm_asm_hex (v : Imm) :
    (∃ ds : List Char, Imm.Asm v = "$" ++ ("0x" ++ String.mk ds) ∧ ds ≠ []
      ∧ (∀ c ∈ ds, c ∈ hexChars) ∧ hexValue ds = v
      ∧ (if v = 0 then ds = ['0'] else ds.head? ≠ some '0'))
    ∧ Imm.Asm 255 = "$0xff" ∧ Imm.Asm 0 = "$0x0" := by
  refine ⟨?_, by decide, by decide⟩
  obtain ⟨l, h1, h2, h3, h4, h5⟩ := toDigitsCore_hex_spec (v + 1) v [] (Nat.lt_succ_self v)
  refine ⟨l, ?_, h2, h3, h4, h5⟩
  simp [Imm.Asm, fmtHashX, Nat.toDigits, h1]

/-- C13: `Rel(r).Asm()` is `.` followed by the sign, `+` for every `r ≥ 0` and `-` for every
`r < 0`, and the decimal digits of the absolute value; `Rel(0).Asm()` is `.+0`. -/
theorem rel_asm_signed (r : Rel) :
    Rel.Asm r = "." ++ ((if 0 ≤ r then "+" else "-") ++ decimal r.natAbs)
    ∧ Rel.Asm 0 = ".+0" := by
  refine ⟨?_, by decide⟩
  unfold Rel.Asm ItoaPlus decimal
  by_cases h : r < 0
  · have h2 : ¬ (0 ≤ r) := not_le.2 h
    simp [h, h2]
  · have h2 : 0 ≤ r := not_lt.1 h
    simp [h, h2]

/-! ## Registers and ApplyAllocation -/

theorem LookupDefault_eq (a : Allocation) (r : Register) :
    a.LookupDefault r = (a r).getD r := by
  unfold Allocation.LookupDefault
  cases a r <;> rfl

theorem LookupDefaultField_eq (a : Allocation) (r : Option Register) :
    a.LookupDefaultField r = r.map (fun x => (a x).getD x) := by
  cases r with
  | none => rfl
  | some x => simp [Allocation.LookupDefaultField, LookupDefault_eq]

theorem Registers_mem (m : Mem) :
    Registers (Op.mem m) = some (m.Base.toList ++ m.Index.toList) := by
  obtain ⟨sym, disp, base, index, scale⟩ := m
  cases base <;> cases index <;> rfl

/-- C14: `Registers` returns the register itself for a register; for a `Mem` the base when
present followed by the index when present, whatever the scale (in `exMem` the scale is 0,
the index is listed and `Asm` leaves it out); nothing for `Imm`, `Rel` and `LabelRef`. -/
theorem registers_of_operand :
    (∀ r : Register, Registers (Op.reg r) = some [r])
    ∧ (∀ m : Mem, Registers (Op.mem m) = some (m.Base.toList ++ m.Index.toList))
    ∧ (∀ i : Imm, Registers (Op.imm i) = some [])
    ∧ (∀ r : Rel, Registers (Op.rel r) = some [])
    ∧ (∀ l : LabelRef, Registers (Op.label l) = some [])
    ∧ Registers (Op.mem exMem) = some [⟨1, "v1"⟩, ⟨2, "v2"⟩]
    ∧ exMem.Asm = "foo<>+16(v1)" :=
  ⟨fun _ => rfl, Registers_mem, fun _ => rfl, fun _ => rfl, fun _ => rfl, by decide, by decide⟩

/-- C15: `ApplyAllocation` on a `Mem` returns a `Mem` with the same `Symbol`, `Disp` and
`Scale`, whose `Base` is the mapped value of the base, or the base itself without an entry,
and whose `Index` is obtained from the index alone in the same way. -/
theorem apply_allocation_mem (m : Mem) (a : Allocation) :
    ∃ m1 : Mem, ApplyAllocation (Op.mem m) a = Op.mem m1
      ∧ m1.Symbol = m.Symbol ∧ m1.Disp = m.Disp ∧ m1.Scale = m.Scale
      ∧ m1.Base = m.Base.map (fun r => (a r).getD r)
      ∧ m1.Index = m.Index.map (fun r => (a r).getD r) :=
  ⟨_, rfl, rfl, rfl, rfl, LookupDefaultField_eq a m.Base, LookupDefaultField_eq a m.Index⟩

/-- C16: `ApplyAllocation` is total; a register with an entry in the allocation is replaced
by its mapped value, a register without an entry is returned as it is, and `Imm`, `Rel` and
`LabelRef` operands are returned unchanged. -/
theorem apply_allocation_total (a : Allocation) :
    (∀ r p : Register, a r = some p → ApplyAllocation (Op.reg r) a = Op.reg p)
    ∧ (∀ r : Register, a r = none → ApplyAllocation (Op.reg r) a = Op.reg r)
    ∧ (∀ i : Imm, ApplyAllocation (Op.imm i) a = Op.imm i)
    ∧ (∀ r : Rel, ApplyAllocation (Op.rel r) a = Op.rel r)
    ∧ (∀ l : LabelRef, ApplyAllocation (Op.label l) a = Op.label l) := by
  refine ⟨fun r p h => ?_, fun r h => ?_, fun _ => rfl, fun _ => rfl, fun _ => rfl⟩
  · simp [ApplyAllocation, Allocation.LookupDefault, h]
  · simp [ApplyAllocation, Allocation.LookupDefault, h]

theorem apply_allocation_total_witness :
    ApplyAllocation (Op.reg ⟨1, "v1"⟩) exAlloc = Op.reg ⟨100, "AX"⟩
    ∧ ApplyAllocation (Op.reg ⟨2, "v2"⟩) exAlloc = Op.reg ⟨2, "v2"⟩ :=
  ⟨(apply_allocation_total exAlloc).1 ⟨1, "v1"⟩ ⟨100, "AX"⟩ (by decide),
   (apply_allocation_total exAlloc).2.1 ⟨2, "v2"⟩ (by decide)⟩

/-- C17: for a `Mem`, `Registers` after `ApplyAllocation` is the list `Registers` gives for
the operand itself with every register replaced by its mapped value, or kept without an
entry: the same length and the same (base, index) order. -/
theorem registers_apply_allocation (m : Mem) (a : Allocation) :
    Registers (ApplyAllocation (Op.mem m) a)
      = (Registers (Op.mem m)).map (List.map (fun r => (a r).getD r))
    ∧ ∃ before after, Registers (Op.mem m) = some before
        ∧ Registers (ApplyAllocation (Op.mem m) a) = some after
        ∧ after.length = before.length := by
  have h : Registers (ApplyAllocation (Op.mem m) a)
      = (Registers (Op.mem m)).map (List.map (fun r => (a r).getD r)) := by
    obtain ⟨sym, disp, base, index, scale⟩ := m
    cases base <;> cases index <;>
      simp [ApplyAllocation, Registers, Allocation.LookupDefaultField, LookupDefault_eq]
  refine ⟨h, m.Base.toList ++ m.Index.toList,
    (m.Base.toList ++ m.Index.toList).map (fun r => (a r).getD r), Registers_mem m, ?_, ?_⟩
  · rw [h, Registers_mem]; rfl
  · simp

/-! ## Validation arguments -/

theorem formArgs_ok (ops : List Operand) :
    ∀ Ls : List (List String),
      ops.map (fun op => validArgs.lookup op.Typ) = Ls.map some →
      formArgs ops = Except.ok Ls := by
  induction ops with
  | nil =>
    intro Ls h
    cases Ls with
    | nil => rfl
    | cons l Ls => simp at h
  | cons op rest ih =>
    intro Ls h
    cases Ls with
    | nil => simp at h
    | cons l Ls =>
      rw [List.map_cons, List.map_cons, List.cons.injEq] at h
      simp only [formArgs, h.1, ih Ls h.2]

theorem formArgs_error_first (pre : List Operand) (op : Operand) (post : List Operand)
    (hpre : ∀ o ∈ pre, validArgs.lookup o.Typ ≠ none)
    (hop : validArgs.lookup op.Typ = none) :
    formArgs (pre ++ op :: post) = Except.error ("missing operands for type " ++ op.Typ) := by
  induction pre with
  | nil => simp only [List.nil_append, formArgs, hop]
  | cons o rest ih =>
    have ho := hpre o (List.mem_cons_self _ _)
    have hrest := ih (fun x hx => hpre x (List.mem_cons_of_mem _ hx))
    cases hl : validArgs.lookup o.Typ with
    | none => exact absurd hl ho
    | some valid =>
      rw [List.cons_append, formArgs, hl]
      simp only [hrest]

theorem formArgs_cases (ops : List Operand) :
    (∃ Ls : List (List String), ops.map (fun op => validArgs.lookup op.Typ) = Ls.map some)
    ∨ (∃ pre op post, ops = pre ++ op :: post
        ∧ (∀ o ∈ pre, validArgs.lookup o.Typ ≠ none) ∧ validArgs.lookup op.Typ = none) := by
  induction ops with
  | nil => exact Or.inl ⟨[], rfl⟩
  | cons o rest ih =>
    cases hl : validArgs.lookup o.Typ with
    | none => exact Or.inr ⟨[], o, rest, rfl, by simp, hl⟩
    | some valid =>
      rcases ih with ⟨Ls, hLs⟩ | ⟨pre, op, post, h1, h2, h3⟩
      · exact Or.inl ⟨valid :: Ls, by simp [hl, hLs]⟩
      · refine Or.inr ⟨o :: pre, op, post, by rw [h1]; rfl, ?_, h3⟩
        intro x hx
        rcases List.mem_cons.1 hx with hx | hx
        · rw [hx, hl]; simp
        · exact h2 x hx

/-- C18: `validFormArgs` panics exactly when some operand has a type tag that is not a key
of `validArgs`; the message then names the tag of the first such operand; and when every
tag is a key, the list handed to `cross` holds at every position the catalog list of the
tag at that position. -/
theorem validFormArgs_fails_iff (f : Form) :
    ((∃ msg, validFormArgs f = Except.error msg)
        ↔ ∃ op ∈ f.Operands, validArgs.lookup op.Typ = none)
    ∧ (∀ pre op post, f.Operands = pre ++ op :: post →
        (∀ o ∈ pre, validArgs.lookup o.Typ ≠ none) → validArgs.lookup op.Typ = none →
        validFormArgs f = Except.error ("missing operands for type " ++ op.Typ))
    ∧ (∀ Ls : List (List String),
        f.Operands.map (fun op => validArgs.lookup op.Typ) = Ls.map some →
        formArgs f.Operands = Except.ok Ls ∧ validFormArgs f = Except.ok (cross Ls)) := by
  have hfirst : ∀ pre op post, f.Operands = pre ++ op :: post →
      (∀ o ∈ pre, validArgs.lookup o.Typ ≠ none) → validArgs.lookup op.Typ = none →
      validFormArgs f = Except.error ("missing operands for type " ++ op.Typ) := by
    intro pre op post h1 h2 h3
    simp only [validFormArgs, h1, formArgs_error_first pre op post h2 h3]
  have hok : ∀ Ls : List (List String),
      f.Operands.map (fun op => validArgs.lookup op.Typ) = Ls.map some →
      formArgs f.Operands = Except.ok Ls ∧ validFormArgs f = Except.ok (cross Ls) := by
    intro Ls h
    have := formArgs_ok f.Operands Ls h
    exact ⟨this, by simp only [validFormArgs, this]⟩
  refine ⟨⟨?_, ?_⟩, hfirst, hok⟩
  · rintro ⟨msg, hmsg⟩
    rcases formArgs_cases f.Operands with ⟨Ls, hLs⟩ | ⟨pre, op, post, h1, _, h3⟩
    · rw [(hok Ls hLs).2] at hmsg
      cases hmsg
    · exact ⟨op, by rw [h1]; simp, h3⟩
  · rintro ⟨op, hop, hnone⟩
    rcases formArgs_cases f.Operands with ⟨Ls, hLs⟩ | ⟨pre, op1, post, h1, h2, h3⟩
    · exfalso
      have hmem : validArgs.lookup op.Typ ∈ Ls.map some := by
        rw [← hLs]; exact List.mem_map.2 ⟨op, hop, rfl⟩
      rw [hnone] at hmem
      simp at hmem
    · exact ⟨_, hfirst pre op1 post h1 h2 h3⟩

theorem validFormArgs_fails_iff_witness :
    validFormArgs exBadForm = Except.error "missing operands for type imm3u"
    ∧ (formArgs exForm.Operands
          = Except.ok [["reg.CH", "reg.BL", "reg.R13B"], ["operand.Imm(1)", "operand.Imm(3)"]]
        ∧ validFormArgs exForm
          = Except.ok (cross [["reg.CH", "reg.BL", "reg.R13B"],
              ["operand.Imm(1)", "operand.Imm(3)"]])) :=
  ⟨(validFormArgs_fails_iff exBadForm).2.1 [⟨"r8"⟩] ⟨"imm3u"⟩ [⟨"bad"⟩] rfl (by decide) (by decide),
   (validFormArgs_fails_iff exForm).2.2 _ (by decide)⟩

theorem length_cross (Ls : List (List String)) :
    (cross Ls).length = (Ls.map List.length).prod := by
  induction Ls with
  | nil => rfl
  | cons l rest ih =>
    have hl : ∀ (c : Nat) (l : List String) (g : String → List (List String)),
        (∀ a ∈ l, (g a).length = c) → (l.flatMap g).length = l.length * c := by
      intro c l g
      induction l with
      | nil => intro _; simp
      | cons a t iht =>
        intro hg
        rw [List.flatMap_cons, List.length_append, hg a (List.mem_cons_self _ _),
          iht (fun b hb => hg b (List.mem_cons_of_mem _ hb)), List.length_cons]
        ring
    rw [cross, hl (cross rest).length l _ (fun a _ => by simp), ih]
    simp

theorem mem_cross (Ls : List (List String)) :
    ∀ sel : List String, sel ∈ cross Ls ↔ List.Forall₂ (fun x l => x ∈ l) sel Ls := by
  induction Ls with
  | nil =>
    intro sel
    simp [cross]
  | cons l rest ih =>
    intro sel
    rw [cross, List.mem_flatMap]
    constructor
    · rintro ⟨a, ha, hsel⟩
      obtain ⟨tail, htail, rfl⟩ := List.mem_map.1 hsel
      exact List.Forall₂.cons ha ((ih tail).1 htail)
    · intro h
      cases h with
      | cons ha htail =>
        exact ⟨_, ha, List.mem_map.2 ⟨_, (ih _).2 htail, rfl⟩⟩

theorem mem_of_lookup_eq_some (k : String) (v : List String)
    (m : List (String × List String)) (h : m.lookup k = some v) : (k, v) ∈ m := by
  induction m with
  | nil => simp at h
  | cons e rest ih =>
    obtain ⟨k1, v1⟩ := e
    by_cases hk : k = k1
    · subst hk
      simp [List.lookup] at h
      subst h
      exact List.mem_cons_self _ _
    · have hb : (k == k1) = false := by simpa using hk
      simp only [List.lookup, hb] at h
      exact List.mem_cons_of_mem _ (ih h)

theorem validArgs_nonempty : ∀ e ∈ validArgs, e.2 ≠ [] := by
  decide

theorem prod_lengths_pos (Ls : List (List String)) (h : ∀ l ∈ Ls, l ≠ []) :
    1 ≤ (Ls.map List.length).prod := by
  induction Ls with
  | nil => simp
  | cons l rest ih =>
    have h1 : 1 ≤ l.length := List.length_pos.2 (h l (List.mem_cons_self _ _))
    have h2 := ih (fun x hx => h x (List.mem_cons_of_mem _ hx))
    rw [List.map_cons, List.prod_cons]
    exact Nat.mul_pos h1 h2

/-- C19: for a form whose type tags are all in the catalog, with catalog lists `Ls` at its
positions, `validFormArgs` returns as many combinations as the product of the lengths of
`Ls`; a list is among the combinations exactly when it takes one element per position from
the catalog list of that position; and there is at least one combination. -/
theorem valid_form_args_product (f : Form) (Ls : List (List String))
    (h : f.Operands.map (fun op => validArgs.lookup op.Typ) = Ls.map some) :
    ∃ combos, validFormArgs f = Except.ok combos
      ∧ combos.length = (Ls.map List.length).prod
      ∧ (∀ sel, sel ∈ combos ↔ List.Forall₂ (fun x l => x ∈ l) sel Ls)
      ∧ (∀ sel ∈ combos, sel.length = f.Operands.length)
      ∧ 1 ≤ combos.length := by
  have hne : ∀ l ∈ Ls, l ≠ [] := by
    intro l hl
    have hmem : some l ∈ f.Operands.map (fun op => validArgs.lookup op.Typ) := by
      rw [h]; exact List.mem_map.2 ⟨l, hl, rfl⟩
    obtain ⟨op, _, hop⟩ := List.mem_map.1 hmem
    exact validArgs_nonempty _ (mem_of_lookup_eq_some _ _ _ hop)
  have hlen : f.Operands.length = Ls.length := by
    have := congrArg List.length h
    simpa using this
  refine ⟨cross Ls, ?_, length_cross Ls, mem_cross Ls, ?_, ?_⟩
  · simp only [validFormArgs, formArgs_ok f.Operands Ls h]
  · intro sel hsel
    rw [hlen]
    exact ((mem_cross Ls sel).1 hsel).length_eq
  · rw [length_cross]
    exact prod_lengths_pos Ls hne

theorem valid_form_args_product_witness :
    (validFormArgs exForm
        = Except.ok [["reg.CH", "operand.Imm(1)"], ["reg.CH", "operand.Imm(3)"],
            ["reg.BL", "operand.Imm(1)"], ["reg.BL", "operand.Imm(3)"],
            ["reg.R13B", "operand.Imm(1)"], ["reg.R13B", "operand.Imm(3)"]])
    ∧ ∃ combos, validFormArgs exForm = Except.ok combos
      ∧ combos.length
          = ([["reg.CH", "reg.BL", "reg.R13B"], ["operand.Imm(1)", "operand.Imm(3)"]].map
              List.length).prod
      ∧ (∀ sel, sel ∈ combos ↔ List.Forall₂ (fun x l => x ∈ l) sel
            [["reg.CH", "reg.BL", "reg.R13B"], ["operand.Imm(1)", "operand.Imm(3)"]])
      ∧ (∀ sel ∈ combos, sel.length = exForm.Operands.length)
      ∧ 1 ≤ combos.length :=
  ⟨rfl, valid_form_args_product exForm
    [["reg.CH", "reg.BL", "reg.R13B"], ["operand.Imm(1)", "operand.Imm(3)"]] (by decide)⟩

/-! ## Indexing in Signature -/

theorem foldlM_none_of_mem {α β : Type} (g : β → α → Option β) (x : α)
    (hx : ∀ b, g b x = none) :
    ∀ l : List α, x ∈ l → ∀ b, l.foldlM g b = none := by
  intro l
  induction l with
  | nil => intro h; simp at h
  | cons y t ih =>
    intro h b
    rw [List.foldlM_cons]
    rcases List.mem_cons.1 h with h | h
    · rw [← h, hx b]; rfl
    · cases hy : g b y with
      | none => rfl
      | some b1 => exact ih h b1

theorem collectStep_none (j : Nat) (s : List Nat) (form : Form)
    (h : form.Operands[j]? = none ∨ ∃ op, form.Operands[j]? = some op ∧ op.Typ = "") :
    collectStep j s form = none := by
  unfold collectStep
  rcases h with h | ⟨op, h, hop⟩
  · rw [h]
  · rw [h]
    simp [byte0, hop]

theorem nameStep_none (forms : Forms) (j : Nat) (form : Form) (hform : form ∈ forms)
    (h : form.Operands[j]? = none ∨ ∃ op, form.Operands[j]? = some op ∧ op.Typ = "")
    (st : SigState) : nameStep forms st j = none := by
  have hc : collect j forms = none :=
    foldlM_none_of_mem (collectStep j) form (fun s => collectStep_none j s form h) forms hform []
  simp only [nameStep, hc]

theorem signature_none_of_bad_index (q : ArityQueries) (f : Function) (n : Nat)
    (hv : q.IsVariadic f.Forms = false) (hn : q.IsNiladic f.Forms = false)
    (hA : q.Arity f.Forms = (n : Int)) (form : Form) (hform : form ∈ f.Forms) (j : Nat)
    (hj : j < n)
    (h : form.Operands[j]? = none ∨ ∃ op, form.Operands[j]? = some op ∧ op.Typ = "") :
    f.Signature q = none := by
  have hfold := foldlM_none_of_mem (nameStep f.Forms) j
    (fun st => nameStep_none f.Forms j form hform h st) (List.range n) (List.mem_range.2 hj)
    { ops := List.replicate n "", count := fun _ => 0 }
  have hneg : ¬ ((n : Int) < 0) := by omega
  simp only [Function.Signature, hv, hn, hA, hneg, Int.toNat_ofNat, hfold]
  simp

/-- C20, as amended: on the fixed-arity path of `Signature()` with arity `n`: when every
form has an operand with a non-empty type tag at every position below `n`, no index is out
of range and the result has exactly `n` names; when some form has an empty type tag at a
position below `n`, the indexing panics and no name list is returned.  A form with fewer
operands than another form does not make the indexing panic: with the arity tests of
`inst.Forms` as modelled such a function is variadic and gets the parameter `ops`, and on
the fixed-arity path every form has exactly `n` operands. -/
theorem signature_indexing (q : ArityQueries) (f : Function) (n : Nat)
    (hv : q.IsVariadic f.Forms = false) (hn : q.IsNiladic f.Forms = false)
    (hA : q.Arity f.Forms = (n : Int)) :
    ((∀ form ∈ f.Forms, ∀ j, j < n → ∃ op, form.Operands[j]? = some op ∧ op.Typ ≠ "") →
        ∃ ops, f.Signature q = some (Signature.argslist ops) ∧ ops.length = n)
    ∧ ((∃ form ∈ f.Forms, ∃ j, j < n ∧ ∃ op, form.Operands[j]? = some op ∧ op.Typ = "") →
        f.Signature q = none)
    ∧ (∀ g : Function,
        (∃ a ∈ g.Forms, ∃ b ∈ g.Forms, a.Operands.length < b.Operands.length) →
        g.Signature exQueries = some (Signature.variadic "ops"))
    ∧ (∀ (g : Function) (m : Nat), Forms.IsVariadic g.Forms = false →
        Forms.Arity g.Forms = (m : Int) → ∀ form ∈ g.Forms, form.Operands.length = m) := by
  refine ⟨fun hok => ?_, ?_, ?_, fun g m hgv hgA => uniform_of_not_variadic g.Forms m hgv hgA⟩
  · have hfirst : ∀ j, j < n → ∀ form ∈ f.Forms, ∃ c, firstChar form j = some c := by
      intro j hj form hform
      obtain ⟨op, hop, hne⟩ := hok form hform j hj
      unfold firstChar
      rw [hop]
      cases hd : op.Typ.data with
      | nil => exact absurd (String.ext hd) hne
      | cons c rest => exact ⟨c, by simp [hd]⟩
    obtain ⟨st, h1, h2, _⟩ := loop_spec f.Forms n hfirst n le_rfl
    have hneg : ¬ ((n : Int) < 0) := by omega
    refine ⟨st.ops, ?_, by simp [h2]⟩
    simp only [Function.Signature, hv, hn, hA, hneg, Int.toNat_ofNat, h1]
    simp
  · rintro ⟨form, hform, j, hj, hbad⟩
    exact signature_none_of_bad_index q f n hv hn hA form hform j hj (Or.inr hbad)
  · rintro g ⟨a, ha, b, hb, hlt⟩
    have hgv : exQueries.IsVariadic g.Forms = true :=
      isVariadic_of_differ g.Forms a b ha hb (Nat.ne_of_lt hlt)
    simp [Function.Signature, hgv]

theorem signature_indexing_witness :
    (∃ ops, exRR.Signature exQueries = some (Signature.argslist ops) ∧ ops.length = 2)
    ∧ Function.Signature exQueries exEmptyTag = none
    ∧ Function.Signature exQueries exShort = some (Signature.variadic "ops") :=
  ⟨(signature_indexing exQueries exRR 2 rfl rfl rfl).1 (by decide),
   (signature_indexing exQueries exEmptyTag 2 rfl rfl rfl).2.1 (by decide),
   (signature_indexing exQueries exRR 2 rfl rfl rfl).2.2.1 exShort
      ⟨⟨[⟨"r16"⟩], [[]]⟩, by decide, ⟨[⟨"r8"⟩, ⟨"r8"⟩], [[]]⟩, by decide, by decide⟩⟩

/-- C20 fails as stated: `exShort` has a form with two operands and a form with fewer, one
operand; `Signature()` does not fail on it, it returns the variadic parameter `ops`. -/
theorem signature_short_form_counterexample :
    (∃ form ∈ exShort.Forms, form.Operands.length = 2)
    ∧ (∃ form ∈ exShort.Forms, form.Operands.length < 2)
    ∧ exShort.Signature exQueries = some (Signature.variadic "ops")
    ∧ exShort.Signature exQueries ≠ none := by
  decide

/-! ## Grouping on the lists that SupportedSuffixes yields -/

theorem keys_injective_of_plain (i : Instruction) (h : ∀ f ∈ i.Forms, PlainSuffixes f) :
    ∀ s1 ∈ scannedSuffixes i, ∀ s2 ∈ scannedSuffixes i,
      Join s1 "." = Join s2 "." → s1 = s2 := by
  have hplain : ∀ s ∈ scannedSuffixes i, ∀ t ∈ s, PlainToken t := by
    intro s hs
    unfold scannedSuffixes at hs
    obtain ⟨f, hf, hsf⟩ := List.mem_flatMap.1 hs
    exact h f hf s hsf
  intro s1 h1 s2 h2 hj
  exact Join_injective_of_plain s1 s2 (hplain s1 h1) (hplain s2 h2) hj

/-- C6: every form that supports at least one suffix combination is in a returned function;
and on the lists that `SupportedSuffixes` yields (plain tokens, every combination listed
once), for every suffix combination `s` supported by a form of the instruction a function
with `Suffixes = s` is returned, and the forms of a returned function with `Suffixes = s`
are exactly the forms of the instruction that support `s`, in instruction order. -/
theorem forms_of_function (i : Instruction) :
    (∀ f ∈ i.Forms, f.SupportedSuffixes ≠ [] → ∃ fn ∈ InstructionFunctions i, f ∈ fn.Forms)
    ∧ ((∀ f ∈ i.Forms, ProducedSuffixes f) → ∀ s ∈ scannedSuffixes i,
        (∃ fn ∈ InstructionFunctions i, fn.Suffixes = s)
        ∧ ∀ fn ∈ InstructionFunctions i, fn.Suffixes = s →
            fn.Forms = i.Forms.filter (fun f => s ∈ f.SupportedSuffixes)) := by
  have h := GroupInv.bysuffix i
  constructor
  · intro f hf hne
    obtain ⟨t, rest, ht⟩ := List.exists_cons_of_ne_nil hne
    have hp : (f, t) ∈ scanPairs i := by
      unfold scanPairs
      rw [List.mem_flatMap]
      exact ⟨f, hf, List.mem_map.2 ⟨t, by simp [ht], rfl⟩⟩
    obtain ⟨e, he, hek⟩ := List.mem_map.1 (h.keys _ hp)
    refine ⟨e.2, (mem_InstructionFunctions i _).2 (List.mem_map.2 ⟨e, he, rfl⟩), ?_⟩
    rw [(h.entry e he).2.2.2]
    refine List.mem_map.2 ⟨(f, t), ?_, rfl⟩
    rw [List.mem_filter]
    exact ⟨hp, by simpa using hek.symm⟩
  · intro hprod s hs
    have hinj := keys_injective_of_plain i (fun f hf => (hprod f hf).1)
    have hall := forms_of_keyed_function i s hinj (fun f hf => (hprod f hf).2) hs
    exact ⟨hall.1, hall.2.1⟩

theorem forms_of_function_witness :
    (InstructionFunctions exSuffixed).map (fun fn => (fn.Name, fn.Forms.length))
        = [("VPADDD", 2), ("VPADDD_BCST", 1), ("VPADDD_BCST_Z", 1), ("VPADDD_Z", 2)]
    ∧ (∃ fn ∈ InstructionFunctions exSuffixed, fn.Suffixes = ["Z"])
    ∧ ∀ fn ∈ InstructionFunctions exSuffixed, fn.Suffixes = ["Z"] →
        fn.Forms = exSuffixed.Forms.filter (fun f => ["Z"] ∈ f.SupportedSuffixes) :=
  ⟨by decide, (forms_of_function exSuffixed).2 (by decide) ["Z"] (by decide)⟩

/-- C7: no two returned functions have the same `Suffixes`, and the `Suffixes` of a
returned function is a supported suffix combination; on the lists that `SupportedSuffixes`
yields (plain tokens) there is one function for every distinct supported suffix
combination: the number of returned functions is the number of distinct combinations and
every supported combination is the `Suffixes` of a returned function. -/
theorem one_function_per_combination (i : Instruction) :
    ((InstructionFunctions i).map Function.Suffixes).Nodup
    ∧ (∀ s ∈ (InstructionFunctions i).map Function.Suffixes, s ∈ scannedSuffixes i)
    ∧ ((∀ f ∈ i.Forms, PlainSuffixes f) →
        (InstructionFunctions i).length = (scannedSuffixes i).dedup.length
        ∧ ∀ s ∈ scannedSuffixes i, s ∈ (InstructionFunctions i).map Function.Suffixes) := by
  have h := GroupInv.bysuffix i
  refine ⟨suffixes_nodup i, ?_, ?_⟩
  · intro s hs
    obtain ⟨fn, hfn, rfl⟩ := List.mem_map.1 hs
    obtain ⟨e, he, rfl⟩ := List.mem_map.1 ((mem_InstructionFunctions i _).1 hfn)
    have h3 := (h.entry e he).2.2.1
    rw [scanPairs_snd] at h3
    exact h3
  · intro hplain
    have hall := one_function_per_key i (keys_injective_of_plain i hplain)
    exact ⟨hall.1, fun s hs => (hall.2.2 s).2 hs⟩

theorem one_function_per_combination_witness :
    (scannedSuffixes exSuffixed).dedup = [["BCST"], ["BCST", "Z"], [], ["Z"]]
    ∧ (InstructionFunctions exSuffixed).map Function.Suffixes
        = [[], ["BCST"], ["BCST", "Z"], ["Z"]]
    ∧ (InstructionFunctions exSuffixed).length = (scannedSuffixes exSuffixed).dedup.length
    ∧ ∀ s ∈ scannedSuffixes exSuffixed,
        s ∈ (InstructionFunctions exSuffixed).map Function.Suffixes :=
  ⟨by decide, by decide, (one_function_per_combination exSuffixed).2.2 (by decide)⟩

end Avo
